import Mathlib

set_option maxHeartbeats 1000000

/-!
Verification of the `indexing-service` repository: a shallow embedding of its
concurrent inverted-index storage engine, checked against the repository's
natural-language specification.

The embedding follows the source:
* `Tree` models `Option<Arc<Node<K, V>>>` from `storage/avl/node.rs` and the
  (textually identical) node type in `storage/avl.rs`.  Machine `usize`
  heights become `Nat`, the `isize` balance factor becomes `Int`.
* The interior-mutability tree (`storage/avl.rs`) and the persistent tree
  (`storage/avl/mod.rs`, threaded through `MvccAvl`) are embedded as two
  separate sets of operations (`MutAvl` and `PersAvl` namespaces below) so the
  observational-equivalence claim can be stated between them; sequential
  state-passing replaces the root-pointer swap of the lock-based wrappers.
* `InternPool` (from `intern.rs`) models `Arc` allocation identity with a
  monotone allocation counter: pointer equality of two `Arc`s is identity of
  their allocation ids.
* `AvlStorage` (from `storage/avl_storage.rs`) and `Indexer::query` /
  `Indexer::normalise` (from `indexer.rs`) are embedded with explicit state
  passing; file IO and tokenisation are abstracted by the list of tokens the
  tokeniser yields for a file.
-/

namespace IndexingService

/-- AVL tree, modelling `Option<Arc<Node<K, V>>>` of `storage/avl/node.rs`
(and the identical node of `storage/avl.rs`): `nil` is `None`, `node k v h l r`
is a `Node { k, v, h, l, r }`.  The stored height `h` is kept as a field,
exactly as in the source. -/
inductive Tree (K V : Type) : Type where
  | nil : Tree K V
  | node (k : K) (v : V) (h : Nat) (l r : Tree K V) : Tree K V
deriving DecidableEq

namespace Tree

variable {K V : Type} [LinearOrder K]

/-- Stored height of a subtree: the `height` helper of the source
(`node.as_ref().map(|n| n.h).unwrap_or(0)`). -/
def height : Tree K V → Nat
  | nil => 0
  | node _ _ h _ _ => h

/-- Number of nodes (used only for termination measures of the iterator). -/
def size : Tree K V → Nat
  | nil => 0
  | node _ _ _ l r => 1 + size l + size r

/-- `Node::recompute_height`: height becomes `1 + max (height l) (height r)`. -/
def recomputeHeight : Tree K V → Tree K V
  | nil => nil
  | node k v _ l r => node k v (1 + max (height l) (height r)) l r

/-- `Node::balance`: `height(l) as isize - height(r) as isize`, on `nil` the
source never calls it but `unwrap_or(0)` is used at call sites. -/
def balance : Tree K V → Int
  | nil => 0
  | node _ _ _ l r => (height l : Int) - (height r : Int)

/-- Key of the root node, modelling `self.l.as_ref().map(|l| &l.k)`. -/
def keyOf : Tree K V → Option K
  | nil => none
  | node k _ _ _ _ => some k

/-- Rust `Some(&self.k) > l_key` on `Option<&K>`: `Some x > None` is true,
`Some x > Some y` is `x > y`. -/
def gtOpt (x : K) : Option K → Bool
  | none => true
  | some y => decide (y < x)

/-- Rust `Some(&self.k) < r_key` on `Option<&K>`: `Some x < None` is false,
`Some x < Some y` is `x < y`. -/
def ltOpt (x : K) : Option K → Bool
  | none => false
  | some y => decide (x < y)

/-- `Node::rotate_left`.  When the right child is absent the source returns
`self.clone()` unchanged. -/
def rotateLeft : Tree K V → Tree K V
  | nil => nil
  | node k v h l r =>
    match r with
    | nil => node k v h l nil
    | node rk rv rh rl rr =>
      recomputeHeight (node rk rv rh (recomputeHeight (node k v h l rl)) rr)

/-- `Node::rotate_right`.  When the left child is absent the source returns
`self.clone()` unchanged. -/
def rotateRight : Tree K V → Tree K V
  | nil => nil
  | node k v h l r =>
    match l with
    | nil => node k v h nil r
    | node lk lv lh ll lr =>
      recomputeHeight (node lk lv lh ll (recomputeHeight (node k v h lr r)))

/-- `Node::rebalance_insert`, with the guard conditions exactly as written in
the source: each of the four branches compares `self.k` against the left or
right child key (not the freshly inserted key), and the third and fourth
branches repeat the conditions of the first and second verbatim. -/
def rebalanceInsert : Tree K V → Tree K V
  | nil => nil
  | node k v h l r =>
    if 1 < balance (node k v h l r) ∧ gtOpt k (keyOf l) then
      rotateRight (node k v h l r)
    else if balance (node k v h l r) < -1 ∧ ltOpt k (keyOf r) then
      rotateLeft (node k v h l r)
    else if 1 < balance (node k v h l r) ∧ gtOpt k (keyOf l) then
      rotateRight (recomputeHeight (node k v h (rotateLeft l) r))
    else if balance (node k v h l r) < -1 ∧ ltOpt k (keyOf r) then
      rotateLeft (recomputeHeight (node k v h l (rotateRight r)))
    else node k v h l r

/-- `Node::rebalance_remove`, with `l_balance` / `r_balance` defaulting to `0`
for an absent child exactly as `unwrap_or(0)` does. -/
def rebalanceRemove : Tree K V → Tree K V
  | nil => nil
  | node k v h l r =>
    if 1 < balance (node k v h l r) ∧ 0 ≤ balance l then
      rotateRight (node k v h l r)
    else if 1 < balance (node k v h l r) ∧ balance l < 0 then
      rotateRight (recomputeHeight (node k v h (rotateLeft l) r))
    else if balance (node k v h l r) < -1 ∧ balance r ≤ 0 then
      rotateLeft (node k v h l r)
    else if balance (node k v h l r) < -1 ∧ 0 < balance r then
      rotateLeft (recomputeHeight (node k v h l (rotateRight r)))
    else node k v h l r

/-- `Node::upsert` together with the wrapping done by `Avl::upsert`: on an
absent root a fresh leaf is created, which coincides with the node-level
`Self::leaf(k, f(None))` on an absent child. -/
def upsert (k : K) (f : Option V → V) : Tree K V → Tree K V
  | nil => node k (f none) 1 nil nil
  | node a v h l r =>
    if k < a then rebalanceInsert (recomputeHeight (node a v h (upsert k f l) r))
    else if a < k then rebalanceInsert (recomputeHeight (node a v h l (upsert k f r)))
    else node k (f (some v)) h l r

/-- `Avl::insert`: `upsert(k, |_| v)`. -/
def insertT (k : K) (v : V) (t : Tree K V) : Tree K V :=
  upsert k (fun _ => v) t

/-- `Node::update` together with `Avl::update`'s no-op on an empty root: no
height recomputation and no rebalancing happen on this path in the source. -/
def updateT (k : K) (f : V → V) : Tree K V → Tree K V
  | nil => nil
  | node a v h l r =>
    if k < a then node a v h (updateT k f l) r
    else if a < k then node a v h l (updateT k f r)
    else node a (f v) h l r

/-- `Node::max` restated on the right spine: `maxEntry r (k, v, h)` is the
`(k, v, h)` triple of the rightmost node of `node k v h l r`. -/
def maxEntry : Tree K V → K × V × Nat → K × V × Nat
  | nil, d => d
  | node k v h _ r, _ => maxEntry r (k, v, h)

/-- `Node::remove` together with `Avl::remove`'s no-op on an empty root.  The
two-children case splices in the in-order predecessor (`l.max()`), taking its
`k`, `v` and `h` fields (the `..m` struct update) before recomputing height. -/
def removeT (k : K) : Tree K V → Tree K V
  | nil => nil
  | node a v h l r =>
    if k < a then rebalanceRemove (recomputeHeight (node a v h (removeT k l) r))
    else if a < k then rebalanceRemove (recomputeHeight (node a v h l (removeT k r)))
    else
      match l, r with
      | nil, rn => rn
      | ln, nil => ln
      | ln@(node lk lv lh _ lr), rn =>
        let m := maxEntry lr (lk, lv, lh)
        rebalanceRemove (recomputeHeight (node m.1 m.2.1 m.2.2 (removeT m.1 ln) rn))

/-- `Node::get` together with `Avl::get`: the returned `ValueRef` dereferences
to the node's value. -/
def get (k : K) : Tree K V → Option V
  | nil => none
  | node a v _ l r =>
    if k < a then get k l
    else if a < k then get k r
    else some v

/-- In-order traversal of the tree as a list of key-value pairs. -/
def inorder : Tree K V → List (K × V)
  | nil => []
  | node k v _ l r => inorder l ++ (k, v) :: inorder r

/-- Real (recomputed) height of a subtree, independent of the stored `h`. -/
def realHeight : Tree K V → Nat
  | nil => 0
  | node _ _ _ l r => 1 + max (realHeight l) (realHeight r)

/-- AVL balance condition on real subtree heights: at every node the two
subtree heights differ by at most 1. -/
def isBalanced : Tree K V → Bool
  | nil => true
  | node _ _ _ l r =>
    (realHeight l : Int) - (realHeight r : Int) ≤ 1 &&
      (realHeight r : Int) - (realHeight l : Int) ≤ 1 &&
      isBalanced l && isBalanced r

end Tree

section SortedAssoc

variable {K V : Type} [LinearOrder K]

/-- Key lookup in an association list (first entry with the given key). -/
def lookupA (k : K) : List (K × V) → Option V
  | [] => none
  | (a, b) :: xs => if a = k then some b else lookupA k xs

/-- Insert-or-update on a sorted association list: the list-level counterpart
of `Node::upsert`. -/
def upsertA (k : K) (f : Option V → V) : List (K × V) → List (K × V)
  | [] => [(k, f none)]
  | (a, b) :: xs =>
    if k < a then (k, f none) :: (a, b) :: xs
    else if a < k then (a, b) :: upsertA k f xs
    else (k, f (some b)) :: xs

/-- Value update on an association list: the list-level counterpart of
`Node::update` (first matching entry, key kept). -/
def updateA (k : K) (f : V → V) : List (K × V) → List (K × V)
  | [] => []
  | (a, b) :: xs => if a = k then (a, f b) :: xs else (a, b) :: updateA k f xs

/-- Key removal on an association list (first matching entry): the list-level
counterpart of `Node::remove`. -/
def eraseA (k : K) : List (K × V) → List (K × V)
  | [] => []
  | (a, b) :: xs => if a = k then xs else (a, b) :: eraseA k xs

/-- Strict ascending order of the keys of an association list. -/
def KSorted (l : List (K × V)) : Prop :=
  l.Pairwise (fun p q => p.1 < q.1)

instance (l : List (K × V)) : Decidable (KSorted l) := by
  unfold KSorted; infer_instance

theorem lookupA_eq_none {k : K} {xs : List (K × V)} (h : ∀ p ∈ xs, p.1 ≠ k) :
    lookupA k xs = none := by
  induction xs with
  | nil => rfl
  | cons p xs ih =>
    obtain ⟨a, b⟩ := p
    simp only [lookupA]
    rw [if_neg (h (a, b) (List.mem_cons_self _ _))]
    exact ih fun q hq => h q (List.mem_cons_of_mem _ hq)

theorem lookupA_append_right {k : K} {xs ys : List (K × V)} (h : ∀ p ∈ xs, p.1 ≠ k) :
    lookupA k (xs ++ ys) = lookupA k ys := by
  induction xs with
  | nil => rfl
  | cons p xs ih =>
    obtain ⟨a, b⟩ := p
    simp only [List.cons_append, List.append_eq, lookupA]
    rw [if_neg (h (a, b) (List.mem_cons_self _ _))]
    exact ih fun q hq => h q (List.mem_cons_of_mem _ hq)

theorem lookupA_append_left {k : K} {xs ys : List (K × V)} (h : ∀ p ∈ ys, p.1 ≠ k) :
    lookupA k (xs ++ ys) = lookupA k xs := by
  induction xs with
  | nil => exact lookupA_eq_none h
  | cons p xs ih =>
    obtain ⟨a, b⟩ := p
    simp only [List.cons_append, List.append_eq, lookupA]
    split
    · rfl
    · exact ih

theorem upsertA_append_lt {k a : K} {f : Option V → V} {v : V} {xs ys : List (K × V)}
    (h : k < a) :
    upsertA k f (xs ++ (a, v) :: ys) = upsertA k f xs ++ (a, v) :: ys := by
  induction xs with
  | nil => simp [upsertA, h]
  | cons p xs ih =>
    obtain ⟨b, c⟩ := p
    simp only [List.cons_append, List.append_eq, upsertA]
    split
    · rfl
    · split
      · simpa using ih
      · rfl

theorem upsertA_append_gt {k a : K} {f : Option V → V} {v : V} {xs ys : List (K × V)}
    (ha : a < k) (h : ∀ p ∈ xs, p.1 < k) :
    upsertA k f (xs ++ (a, v) :: ys) = xs ++ (a, v) :: upsertA k f ys := by
  induction xs with
  | nil => simp [upsertA, ha, not_lt_of_gt ha]
  | cons p xs ih =>
    obtain ⟨b, c⟩ := p
    have hb : b < k := h (b, c) (List.mem_cons_self _ _)
    simp only [List.cons_append, List.append_eq, upsertA]
    rw [if_neg (not_lt_of_gt hb), if_pos hb]
    rw [ih fun q hq => h q (List.mem_cons_of_mem _ hq)]

theorem updateA_id {k : K} {f : V → V} {xs : List (K × V)} (h : ∀ p ∈ xs, p.1 ≠ k) :
    updateA k f xs = xs := by
  induction xs with
  | nil => rfl
  | cons p xs ih =>
    obtain ⟨a, b⟩ := p
    simp only [updateA]
    rw [if_neg (h (a, b) (List.mem_cons_self _ _))]
    rw [ih fun q hq => h q (List.mem_cons_of_mem _ hq)]

theorem updateA_append_right {k : K} {f : V → V} {xs ys : List (K × V)}
    (h : ∀ p ∈ xs, p.1 ≠ k) :
    updateA k f (xs ++ ys) = xs ++ updateA k f ys := by
  induction xs with
  | nil => rfl
  | cons p xs ih =>
    obtain ⟨a, b⟩ := p
    simp only [List.cons_append, List.append_eq, updateA]
    rw [if_neg (h (a, b) (List.mem_cons_self _ _))]
    rw [ih fun q hq => h q (List.mem_cons_of_mem _ hq)]

theorem updateA_append_left {k : K} {f : V → V} {xs ys : List (K × V)}
    (h : ∀ p ∈ ys, p.1 ≠ k) :
    updateA k f (xs ++ ys) = updateA k f xs ++ ys := by
  induction xs with
  | nil => simpa using updateA_id h
  | cons p xs ih =>
    obtain ⟨a, b⟩ := p
    simp only [List.cons_append, List.append_eq, updateA]
    split
    · rfl
    · rw [ih]
      simp

theorem eraseA_id {k : K} {xs : List (K × V)} (h : ∀ p ∈ xs, p.1 ≠ k) :
    eraseA k xs = xs := by
  induction xs with
  | nil => rfl
  | cons p xs ih =>
    obtain ⟨a, b⟩ := p
    simp only [eraseA]
    rw [if_neg (h (a, b) (List.mem_cons_self _ _))]
    rw [ih fun q hq => h q (List.mem_cons_of_mem _ hq)]

theorem eraseA_append_right {k : K} {xs ys : List (K × V)} (h : ∀ p ∈ xs, p.1 ≠ k) :
    eraseA k (xs ++ ys) = xs ++ eraseA k ys := by
  induction xs with
  | nil => rfl
  | cons p xs ih =>
    obtain ⟨a, b⟩ := p
    simp only [List.cons_append, List.append_eq, eraseA]
    rw [if_neg (h (a, b) (List.mem_cons_self _ _))]
    rw [ih fun q hq => h q (List.mem_cons_of_mem _ hq)]

theorem eraseA_append_left {k : K} {xs ys : List (K × V)} (h : ∀ p ∈ ys, p.1 ≠ k) :
    eraseA k (xs ++ ys) = eraseA k xs ++ ys := by
  induction xs with
  | nil => simpa using eraseA_id h
  | cons p xs ih =>
    obtain ⟨a, b⟩ := p
    simp only [List.cons_append, List.append_eq, eraseA]
    split
    · rfl
    · rw [ih]
      simp

theorem keys_updateA {k : K} {f : V → V} (xs : List (K × V)) :
    (updateA k f xs).map Prod.fst = xs.map Prod.fst := by
  induction xs with
  | nil => rfl
  | cons p xs ih =>
    obtain ⟨a, b⟩ := p
    simp only [updateA]
    split
    · simp
    · simpa using ih

theorem mem_keys_upsertA {k x : K} {f : Option V → V} {xs : List (K × V)} :
    x ∈ (upsertA k f xs).map Prod.fst ↔ x = k ∨ x ∈ xs.map Prod.fst := by
  induction xs with
  | nil => simp [upsertA, eq_comm]
  | cons p xs ih =>
    obtain ⟨a, b⟩ := p
    simp only [upsertA]
    split
    · simp [eq_comm]
    · split
      · simp only [List.map_cons, List.mem_cons]
        rw [ih]
        tauto
      · have : a = k := le_antisymm (not_lt.mp (by assumption)) (not_lt.mp (by assumption))
        subst this
        simp [eq_comm]

theorem KSorted_upsertA {k : K} {f : Option V → V} {xs : List (K × V)}
    (h : KSorted xs) : KSorted (upsertA k f xs) := by
  induction xs with
  | nil => simp [upsertA, KSorted]
  | cons p xs ih =>
    obtain ⟨a, b⟩ := p
    rw [KSorted, List.pairwise_cons] at h
    obtain ⟨ha, hxs⟩ := h
    simp only [upsertA]
    split
    · rename_i hk
      rw [KSorted, List.pairwise_cons]
      refine ⟨?_, List.Pairwise.cons ha hxs⟩
      intro q hq
      rcases List.mem_cons.mp hq with rfl | hq
      · exact hk
      · exact lt_trans hk (ha q hq)
    · split
      · rename_i hak
        rw [KSorted, List.pairwise_cons]
        refine ⟨?_, ih hxs⟩
        intro q hq
        have := mem_keys_upsertA.mp (List.mem_map_of_mem Prod.fst hq)
        rcases this with hq1 | hq1
        · exact hq1 ▸ hak
        · obtain ⟨r, hr, hrq⟩ := List.mem_map.mp hq1
          exact hrq ▸ ha r hr
      · have : a = k := le_antisymm (not_lt.mp (by assumption)) (not_lt.mp (by assumption))
        subst this
        rw [KSorted, List.pairwise_cons]
        exact ⟨ha, hxs⟩

theorem keys_eraseA_sublist {k : K} (xs : List (K × V)) :
    List.Sublist ((eraseA k xs).map Prod.fst) (xs.map Prod.fst) := by
  induction xs with
  | nil => simp [eraseA]
  | cons p xs ih =>
    obtain ⟨a, b⟩ := p
    simp only [eraseA]
    split
    · simp
    · simpa using List.Sublist.cons₂ a ih

theorem KSorted_eraseA {k : K} {xs : List (K × V)} (h : KSorted xs) :
    KSorted (eraseA k xs) := by
  rw [KSorted, ← List.pairwise_map] at h ⊢
  exact List.Pairwise.sublist (keys_eraseA_sublist xs) h

theorem KSorted_updateA {k : K} {f : V → V} {xs : List (K × V)} (h : KSorted xs) :
    KSorted (updateA k f xs) := by
  rw [KSorted, ← List.pairwise_map] at h ⊢
  rw [keys_updateA]
  exact h

theorem lookupA_upsertA_self {k : K} {f : Option V → V} {xs : List (K × V)}
    (h : KSorted xs) : lookupA k (upsertA k f xs) = some (f (lookupA k xs)) := by
  induction xs with
  | nil => simp [upsertA, lookupA]
  | cons p xs ih =>
    obtain ⟨a, b⟩ := p
    rw [KSorted, List.pairwise_cons] at h
    obtain ⟨ha, hxs⟩ := h
    simp only [upsertA]
    split
    · rename_i hk
      have h1 : lookupA k ((k, f none) :: (a, b) :: xs) = some (f none) := by
        simp [lookupA]
      have h2 : lookupA k ((a, b) :: xs) = none := by
        simp only [lookupA]
        rw [if_neg (ne_of_gt hk)]
        exact lookupA_eq_none fun q hq => ne_of_gt (lt_trans hk (ha q hq))
      rw [h1, h2]
    · split
      · rename_i hak
        simp only [lookupA]
        rw [if_neg (ne_of_lt hak), if_neg (ne_of_lt hak)]
        exact ih hxs
      · have : a = k := le_antisymm (not_lt.mp (by assumption)) (not_lt.mp (by assumption))
        subst this
        simp [lookupA]

theorem lookupA_upsertA_ne {k x : K} {f : Option V → V} {xs : List (K × V)}
    (h : x ≠ k) : lookupA x (upsertA k f xs) = lookupA x xs := by
  induction xs with
  | nil => simp [upsertA, lookupA, Ne.symm h]
  | cons p xs ih =>
    obtain ⟨a, b⟩ := p
    simp only [upsertA]
    split
    · simp only [lookupA]
      rw [if_neg (Ne.symm h)]
    · split
      · simp only [lookupA]
        split
        · rfl
        · exact ih
      · have : a = k := le_antisymm (not_lt.mp (by assumption)) (not_lt.mp (by assumption))
        subst this
        simp only [lookupA]
        rw [if_neg (Ne.symm h), if_neg (Ne.symm h)]

theorem lookupA_updateA_self {k : K} {f : V → V} (xs : List (K × V)) :
    lookupA k (updateA k f xs) = (lookupA k xs).map f := by
  induction xs with
  | nil => rfl
  | cons p xs ih =>
    obtain ⟨a, b⟩ := p
    simp only [updateA]
    split
    · rename_i hak
      simp [lookupA, hak]
    · rename_i hak
      simp only [lookupA, if_neg hak]
      exact ih

theorem lookupA_updateA_ne {k x : K} {f : V → V} {xs : List (K × V)} (h : x ≠ k) :
    lookupA x (updateA k f xs) = lookupA x xs := by
  induction xs with
  | nil => rfl
  | cons p xs ih =>
    obtain ⟨a, b⟩ := p
    simp only [updateA]
    split
    · rename_i hak
      subst hak
      simp only [lookupA]
      rw [if_neg (Ne.symm h), if_neg (Ne.symm h)]
    · simp only [lookupA]
      split
      · rfl
      · exact ih

theorem lookupA_eraseA_self {k : K} {xs : List (K × V)} (h : KSorted xs) :
    lookupA k (eraseA k xs) = none := by
  induction xs with
  | nil => rfl
  | cons p xs ih =>
    obtain ⟨a, b⟩ := p
    rw [KSorted, List.pairwise_cons] at h
    obtain ⟨ha, hxs⟩ := h
    simp only [eraseA]
    split
    · rename_i hak
      subst hak
      exact lookupA_eq_none fun q hq => ne_of_gt (ha q hq)
    · simp only [lookupA]
      split
      · rename_i hak
        exact absurd hak (by assumption)
      · exact ih hxs

theorem lookupA_eraseA_ne {k x : K} {xs : List (K × V)} (h : x ≠ k) :
    lookupA x (eraseA k xs) = lookupA x xs := by
  induction xs with
  | nil => rfl
  | cons p xs ih =>
    obtain ⟨a, b⟩ := p
    simp only [eraseA]
    split
    · rename_i hak
      subst hak
      simp only [lookupA]
      rw [if_neg (Ne.symm h)]
    · simp only [lookupA]
      split
      · rfl
      · exact ih

end SortedAssoc

section SortedAppend

variable {K V : Type} [LinearOrder K]

theorem upsertA_append_eq {k : K} {f : Option V → V} {v : V} {xs ys : List (K × V)}
    (h : ∀ p ∈ xs, p.1 < k) :
    upsertA k f (xs ++ (k, v) :: ys) = xs ++ (k, f (some v)) :: ys := by
  induction xs with
  | nil => simp [upsertA]
  | cons p xs ih =>
    obtain ⟨b, c⟩ := p
    have hb : b < k := h (b, c) (List.mem_cons_self _ _)
    simp only [List.cons_append, List.append_eq, upsertA]
    rw [if_neg (not_lt_of_gt hb), if_pos hb]
    rw [ih fun q hq => h q (List.mem_cons_of_mem _ hq)]

end SortedAppend

namespace Tree

variable {K V : Type} [LinearOrder K]

theorem inorder_recomputeHeight (t : Tree K V) :
    inorder (recomputeHeight t) = inorder t := by
  cases t <;> rfl

theorem inorder_rotateLeft (t : Tree K V) : inorder (rotateLeft t) = inorder t := by
  cases t with
  | nil => rfl
  | node k v h l r =>
    cases r with
    | nil => rfl
    | node rk rv rh rl rr =>
      simp [rotateLeft, inorder, inorder_recomputeHeight, recomputeHeight]

theorem inorder_rotateRight (t : Tree K V) : inorder (rotateRight t) = inorder t := by
  cases t with
  | nil => rfl
  | node k v h l r =>
    cases l with
    | nil => rfl
    | node lk lv lh ll lr =>
      simp [rotateRight, inorder, inorder_recomputeHeight, recomputeHeight]

theorem inorder_rebalanceInsert (t : Tree K V) :
    inorder (rebalanceInsert t) = inorder t := by
  cases t with
  | nil => rfl
  | node k v h l r =>
    simp only [rebalanceInsert]
    split_ifs <;>
      simp [inorder_rotateLeft, inorder_rotateRight, inorder_recomputeHeight,
        inorder, recomputeHeight]

theorem inorder_rebalanceRemove (t : Tree K V) :
    inorder (rebalanceRemove t) = inorder t := by
  cases t with
  | nil => rfl
  | node k v h l r =>
    simp only [rebalanceRemove]
    split_ifs <;>
      simp [inorder_rotateLeft, inorder_rotateRight, inorder_recomputeHeight,
        inorder, recomputeHeight]

/-- Keys on the left of a sorted in-order decomposition are below the root key,
keys on the right above it; convenience destructor for the proofs below. -/
theorem ksorted_node_parts {a : K} {v : V} (xs : List (K × V)) {ys : List (K × V)}
    (h : KSorted (xs ++ (a, v) :: ys)) :
    KSorted xs ∧ KSorted ys ∧ (∀ p ∈ xs, p.1 < a) ∧ (∀ q ∈ ys, a < q.1) ∧
      (∀ p ∈ xs, ∀ q ∈ ys, p.1 < q.1) := by
  rw [KSorted, List.pairwise_append] at h
  obtain ⟨h1, h2, h3⟩ := h
  rw [List.pairwise_cons] at h2
  refine ⟨h1, h2.2, ?_, h2.1, ?_⟩
  · intro p hp
    exact h3 p hp (a, v) (List.mem_cons_self _ _)
  · intro p hp q hq
    exact h3 p hp q (List.mem_cons_of_mem _ hq)

theorem inorder_upsert (k : K) (f : Option V → V) :
    ∀ t : Tree K V, KSorted (inorder t) →
      inorder (upsert k f t) = upsertA k f (inorder t)
  | nil, _ => rfl
  | node a v h l r, hs => by
    obtain ⟨hl, hr, hxa, har, _⟩ := ksorted_node_parts (inorder l) hs
    simp only [upsert]
    split_ifs with h1 h2
    · rw [inorder_rebalanceInsert, inorder_recomputeHeight]
      simp only [inorder]
      rw [inorder_upsert k f l hl, upsertA_append_lt h1]
    · rw [inorder_rebalanceInsert, inorder_recomputeHeight]
      simp only [inorder]
      rw [inorder_upsert k f r hr,
        upsertA_append_gt h2 fun p hp => lt_trans (hxa p hp) h2]
    · have hak : a = k := le_antisymm (not_lt.mp h1) (not_lt.mp h2)
      subst hak
      simp only [inorder]
      rw [upsertA_append_eq hxa]

theorem inorder_updateT (k : K) (f : V → V) :
    ∀ t : Tree K V, KSorted (inorder t) →
      inorder (updateT k f t) = updateA k f (inorder t)
  | nil, _ => rfl
  | node a v h l r, hs => by
    obtain ⟨hl, hr, hxa, har, _⟩ := ksorted_node_parts (inorder l) hs
    simp only [updateT]
    split_ifs with h1 h2
    · simp only [inorder]
      rw [inorder_updateT k f l hl]
      rw [updateA_append_left]
      intro p hp
      rcases List.mem_cons.mp hp with rfl | hp
      · exact ne_of_gt h1
      · exact ne_of_gt (lt_trans h1 (har p hp))
    · simp only [inorder]
      rw [inorder_updateT k f r hr]
      rw [updateA_append_right fun p hp => ne_of_lt (lt_trans (hxa p hp) h2)]
      simp only [updateA]
      rw [if_neg (ne_of_lt h2)]
    · have hak : a = k := le_antisymm (not_lt.mp h1) (not_lt.mp h2)
      subst hak
      simp only [inorder]
      rw [updateA_append_right fun p hp => ne_of_lt (hxa p hp)]
      simp [updateA]

theorem maxEntry_inorder :
    ∀ (r : Tree K V) (d : K × V × Nat),
      ∃ xs, (d.1, d.2.1) :: inorder r =
        xs ++ [((maxEntry r d).1, (maxEntry r d).2.1)]
  | nil, d => ⟨[], by simp [maxEntry, inorder]⟩
  | node k v h l r, d => by
    obtain ⟨xs, hxs⟩ := maxEntry_inorder r (k, v, h)
    refine ⟨(d.1, d.2.1) :: (inorder l ++ xs), ?_⟩
    simp only [maxEntry]
    simp only [inorder]
    simp only [List.cons_append, List.append_assoc]
    rw [← hxs]

theorem removeT_node_lt {k a : K} {v : V} {h : Nat} {l r : Tree K V} (h1 : k < a) :
    removeT k (node a v h l r) =
      rebalanceRemove (recomputeHeight (node a v h (removeT k l) r)) := by
  cases l <;> cases r <;> simp [removeT, h1]

theorem removeT_node_gt {k a : K} {v : V} {h : Nat} {l r : Tree K V} (h1 : a < k) :
    removeT k (node a v h l r) =
      rebalanceRemove (recomputeHeight (node a v h l (removeT k r))) := by
  cases l <;> cases r <;> simp [removeT, not_lt_of_gt h1, h1]

theorem removeT_node_eq_nil_left {k a : K} {v : V} {h : Nat} {r : Tree K V}
    (h1 : ¬k < a) (h2 : ¬a < k) : removeT k (node a v h nil r) = r := by
  cases r <;> simp [removeT, h1, h2]

theorem removeT_node_eq_nil_right {k a lk : K} {v lv : V} {h lh : Nat}
    {ll lr : Tree K V} (h1 : ¬k < a) (h2 : ¬a < k) :
    removeT k (node a v h (node lk lv lh ll lr) nil) = node lk lv lh ll lr := by
  simp [removeT, h1, h2]

theorem removeT_node_eq_splice {k a lk rk : K} {v lv rv : V} {h lh rh : Nat}
    {ll lr rl rr : Tree K V} (h1 : ¬k < a) (h2 : ¬a < k) :
    removeT k (node a v h (node lk lv lh ll lr) (node rk rv rh rl rr)) =
      rebalanceRemove (recomputeHeight
        (node (maxEntry lr (lk, lv, lh)).1 (maxEntry lr (lk, lv, lh)).2.1
          (maxEntry lr (lk, lv, lh)).2.2
          (removeT (maxEntry lr (lk, lv, lh)).1 (node lk lv lh ll lr))
          (node rk rv rh rl rr))) := by
  simp [removeT, h1, h2]

theorem inorder_removeT (k : K) :
    ∀ t : Tree K V, KSorted (inorder t) →
      inorder (removeT k t) = eraseA k (inorder t)
  | nil, _ => by simp [removeT, inorder, eraseA]
  | node a v h l r, hs => by
    obtain ⟨hl, hr, hxa, har, _⟩ := ksorted_node_parts (inorder l) hs
    by_cases h1 : k < a
    · rw [removeT_node_lt h1, inorder_rebalanceRemove, inorder_recomputeHeight]
      simp only [inorder]
      rw [inorder_removeT k l hl]
      rw [eraseA_append_left]
      intro p hp
      rcases List.mem_cons.mp hp with rfl | hp
      · exact ne_of_gt h1
      · exact ne_of_gt (lt_trans h1 (har p hp))
    · by_cases h2 : a < k
      · rw [removeT_node_gt h2, inorder_rebalanceRemove, inorder_recomputeHeight]
        simp only [inorder]
        rw [inorder_removeT k r hr]
        rw [eraseA_append_right fun p hp => ne_of_lt (lt_trans (hxa p hp) h2)]
        simp only [eraseA]
        rw [if_neg (ne_of_lt h2)]
      · have hak : a = k := le_antisymm (not_lt.mp h1) (not_lt.mp h2)
        subst hak
        cases l with
        | nil =>
          rw [removeT_node_eq_nil_left h1 h2]
          simp [inorder, eraseA]
        | node lk lv lh ll lr =>
          cases r with
          | nil =>
            rw [removeT_node_eq_nil_right h1 h2]
            have hinl : inorder (node a v h (node lk lv lh ll lr) nil) =
                inorder (node lk lv lh ll lr) ++ [(a, v)] := rfl
            rw [hinl]
            rw [eraseA_append_right fun p hp => ne_of_lt (hxa p hp)]
            simp [eraseA]
          | node rk rv rh rl rr =>
            rw [removeT_node_eq_splice h1 h2, inorder_rebalanceRemove,
              inorder_recomputeHeight]
            obtain ⟨zs, hzs⟩ := maxEntry_inorder lr (lk, lv, lh)
            have hinl : inorder (node lk lv lh ll lr) =
                (inorder ll ++ zs) ++
                  [((maxEntry lr (lk, lv, lh)).1, (maxEntry lr (lk, lv, lh)).2.1)] := by
              show inorder ll ++ (lk, lv) :: inorder lr = _
              rw [List.append_assoc]
              rw [← hzs]
            have hlt : ∀ p ∈ inorder ll ++ zs, p.1 < (maxEntry lr (lk, lv, lh)).1 := by
              have hsl := hl
              rw [hinl, KSorted, List.pairwise_append] at hsl
              intro p hp
              exact hsl.2.2 p hp _ (List.mem_cons_self _ _)
            have lhs1 : inorder (node (maxEntry lr (lk, lv, lh)).1
                (maxEntry lr (lk, lv, lh)).2.1 (maxEntry lr (lk, lv, lh)).2.2
                (removeT (maxEntry lr (lk, lv, lh)).1 (node lk lv lh ll lr))
                (node rk rv rh rl rr)) =
                inorder (removeT (maxEntry lr (lk, lv, lh)).1 (node lk lv lh ll lr)) ++
                  ((maxEntry lr (lk, lv, lh)).1, (maxEntry lr (lk, lv, lh)).2.1) ::
                    inorder (node rk rv rh rl rr) := rfl
            rw [lhs1]
            rw [inorder_removeT _ (node lk lv lh ll lr) hl]
            rw [hinl]
            rw [eraseA_append_right fun p hp => ne_of_lt (hlt p hp)]
            have rhs1 : inorder (node a v h (node lk lv lh ll lr) (node rk rv rh rl rr)) =
                inorder (node lk lv lh ll lr) ++ (a, v) :: inorder (node rk rv rh rl rr) :=
              rfl
            rw [rhs1]
            rw [eraseA_append_right fun p hp => ne_of_lt (hxa p hp)]
            rw [hinl]
            simp [eraseA, List.append_assoc]

theorem KSorted_inorder_upsert {k : K} {f : Option V → V} {t : Tree K V}
    (h : KSorted (inorder t)) : KSorted (inorder (upsert k f t)) := by
  rw [inorder_upsert k f t h]
  exact KSorted_upsertA h

theorem KSorted_inorder_updateT {k : K} {f : V → V} {t : Tree K V}
    (h : KSorted (inorder t)) : KSorted (inorder (updateT k f t)) := by
  rw [inorder_updateT k f t h]
  exact KSorted_updateA h

theorem KSorted_inorder_removeT {k : K} {t : Tree K V}
    (h : KSorted (inorder t)) : KSorted (inorder (removeT k t)) := by
  rw [inorder_removeT k t h]
  exact KSorted_eraseA h

theorem get_eq_lookupA (k : K) :
    ∀ t : Tree K V, KSorted (inorder t) → get k t = lookupA k (inorder t)
  | nil, _ => rfl
  | node a v h l r, hs => by
    obtain ⟨hl, hr, hxa, har, _⟩ := ksorted_node_parts (inorder l) hs
    simp only [get]
    split_ifs with h1 h2
    · rw [get_eq_lookupA k l hl]
      simp only [inorder]
      rw [lookupA_append_left]
      intro p hp
      rcases List.mem_cons.mp hp with rfl | hp
      · exact ne_of_gt h1
      · exact ne_of_gt (lt_trans h1 (har p hp))
    · rw [get_eq_lookupA k r hr]
      simp only [inorder]
      rw [lookupA_append_right fun p hp => ne_of_lt (lt_trans (hxa p hp) h2)]
      simp only [lookupA]
      rw [if_neg (ne_of_lt h2)]
    · have hak : a = k := le_antisymm (not_lt.mp h1) (not_lt.mp h2)
      subst hak
      simp only [inorder]
      rw [lookupA_append_right fun p hp => ne_of_lt (hxa p hp)]
      simp [lookupA]

theorem get_upsert_self {k : K} {f : Option V → V} {t : Tree K V}
    (h : KSorted (inorder t)) : get k (upsert k f t) = some (f (get k t)) := by
  rw [get_eq_lookupA k _ (KSorted_inorder_upsert h), inorder_upsert k f t h,
    lookupA_upsertA_self h, get_eq_lookupA k t h]

theorem get_upsert_ne {k x : K} {f : Option V → V} {t : Tree K V}
    (h : KSorted (inorder t)) (hx : x ≠ k) : get x (upsert k f t) = get x t := by
  rw [get_eq_lookupA x _ (KSorted_inorder_upsert h), inorder_upsert k f t h,
    lookupA_upsertA_ne hx, get_eq_lookupA x t h]

theorem get_updateT_self {k : K} {f : V → V} {t : Tree K V}
    (h : KSorted (inorder t)) : get k (updateT k f t) = (get k t).map f := by
  rw [get_eq_lookupA k _ (KSorted_inorder_updateT h), inorder_updateT k f t h,
    lookupA_updateA_self, get_eq_lookupA k t h]

theorem get_updateT_ne {k x : K} {f : V → V} {t : Tree K V}
    (h : KSorted (inorder t)) (hx : x ≠ k) : get x (updateT k f t) = get x t := by
  rw [get_eq_lookupA x _ (KSorted_inorder_updateT h), inorder_updateT k f t h,
    lookupA_updateA_ne hx, get_eq_lookupA x t h]

theorem get_removeT_self {k : K} {t : Tree K V}
    (h : KSorted (inorder t)) : get k (removeT k t) = none := by
  rw [get_eq_lookupA k _ (KSorted_inorder_removeT h), inorder_removeT k t h,
    lookupA_eraseA_self h]

theorem get_removeT_ne {k x : K} {t : Tree K V}
    (h : KSorted (inorder t)) (hx : x ≠ k) : get x (removeT k t) = get x t := by
  rw [get_eq_lookupA x _ (KSorted_inorder_removeT h), inorder_removeT k t h,
    lookupA_eraseA_ne hx, get_eq_lookupA x t h]

/-- `Iter::traverse_left`: starting from subtree `t`, push every node along the
left spine onto the stack.  A stack entry keeps the key, the value and the
right subtree of the pushed node, which is all `next` ever reads from it. -/
def pushLeft : Tree K V → List (K × V × Tree K V) → List (K × V × Tree K V)
  | nil, s => s
  | node k v _ l r, s => pushLeft l ((k, v, r) :: s)

/-- Termination measure for draining the iterator: each stack entry still owes
its own pair plus its whole right subtree. -/
def stackWeight (s : List (K × V × Tree K V)) : Nat :=
  (s.map fun e => 1 + size e.2.2).sum

omit [LinearOrder K] in
theorem stackWeight_cons (k : K) (v : V) (r : Tree K V) (s : List (K × V × Tree K V)) :
    stackWeight ((k, v, r) :: s) = 1 + size r + stackWeight s := by
  simp [stackWeight]

omit [LinearOrder K] in
theorem stackWeight_pushLeft (t : Tree K V) (s : List (K × V × Tree K V)) :
    stackWeight (pushLeft t s) ≤ size t + stackWeight s := by
  induction t generalizing s with
  | nil => simp [pushLeft]
  | node k v h l r ihl ihr =>
    simp only [pushLeft, size]
    have h1 := ihl ((k, v, r) :: s)
    rw [stackWeight_cons] at h1
    omega

/-- Repeatedly calling `Iter::next` until the stack is empty, collecting the
yielded pairs: `next` pops an entry, pushes the left spine of its right
subtree, and yields the entry's key-value pair. -/
def drainIter : List (K × V × Tree K V) → List (K × V)
  | [] => []
  | (k, v, r) :: rest => (k, v) :: drainIter (pushLeft r rest)
termination_by s => stackWeight s
decreasing_by
  have h1 := stackWeight_pushLeft r rest
  rw [stackWeight_cons]
  omega

/-- The full output of `Avl::iter()` on a tree: `Iter::new` pushes the left
spine of the root and the caller drains the iterator. -/
def iterList (t : Tree K V) : List (K × V) :=
  drainIter (pushLeft t [])

omit [LinearOrder K] in
theorem drainIter_pushLeft :
    ∀ (t : Tree K V) (s : List (K × V × Tree K V)),
      drainIter (pushLeft t s) = inorder t ++ drainIter s
  | nil, s => by simp [pushLeft, inorder]
  | node k v h l r, s => by
    simp only [pushLeft, inorder]
    rw [drainIter_pushLeft l ((k, v, r) :: s)]
    have hcons : drainIter ((k, v, r) :: s) = (k, v) :: drainIter (pushLeft r s) := by
      rw [drainIter]
    rw [hcons, drainIter_pushLeft r s]
    simp [List.append_assoc]

omit [LinearOrder K] in
theorem iterList_eq_inorder (t : Tree K V) : iterList t = inorder t := by
  rw [iterList, drainIter_pushLeft]
  rw [drainIter]
  simp

/-- One operation of the Ordered Map's public mutating contract. -/
inductive MapOp (K V : Type) where
  | ins (k : K) (v : V)
  | ups (k : K) (f : Option V → V)
  | upd (k : K) (f : V → V)
  | rem (k : K)

/-- Apply one `MapOp` to a tree, exactly as the corresponding `Avl` method. -/
def applyOp : MapOp K V → Tree K V → Tree K V
  | MapOp.ins k v, t => insertT k v t
  | MapOp.ups k f, t => upsert k f t
  | MapOp.upd k f, t => updateT k f t
  | MapOp.rem k, t => removeT k t

/-- Apply a sequence of `MapOp`s in order. -/
def applyOps (ops : List (MapOp K V)) (t : Tree K V) : Tree K V :=
  ops.foldl (fun t op => applyOp op t) t

/-- Reference semantics of one `MapOp` on a plain function `K → Option V`:
the most recent write to a key wins. -/
def specOp : MapOp K V → (K → Option V) → (K → Option V)
  | MapOp.ins k v, m => fun x => if x = k then some v else m x
  | MapOp.ups k f, m => fun x => if x = k then some (f (m k)) else m x
  | MapOp.upd k f, m => fun x => if x = k then (m k).map f else m x
  | MapOp.rem k, m => fun x => if x = k then none else m x

/-- Reference semantics of a sequence of `MapOp`s. -/
def specOps (ops : List (MapOp K V)) (m : K → Option V) : K → Option V :=
  ops.foldl (fun m op => specOp op m) m

/-- Whether a `MapOp` writes to the given key. -/
def writesKey : MapOp K V → K → Prop
  | MapOp.ins a _, k => a = k
  | MapOp.ups a _, k => a = k
  | MapOp.upd a _, k => a = k
  | MapOp.rem a, k => a = k

instance (op : MapOp K V) (k : K) : Decidable (writesKey op k) := by
  cases op <;> simp only [writesKey] <;> infer_instance

theorem KSorted_inorder_applyOp (op : MapOp K V) {t : Tree K V}
    (h : KSorted (inorder t)) : KSorted (inorder (applyOp op t)) := by
  cases op with
  | ins k v => exact KSorted_inorder_upsert h
  | ups k f => exact KSorted_inorder_upsert h
  | upd k f => exact KSorted_inorder_updateT h
  | rem k => exact KSorted_inorder_removeT h

theorem KSorted_inorder_applyOps (ops : List (MapOp K V)) :
    ∀ t : Tree K V, KSorted (inorder t) → KSorted (inorder (applyOps ops t)) := by
  induction ops with
  | nil => intro t h; exact h
  | cons op ops ih =>
    intro t h
    exact ih (applyOp op t) (KSorted_inorder_applyOp op h)

theorem get_applyOp (op : MapOp K V) {t : Tree K V} (h : KSorted (inorder t)) (x : K) :
    get x (applyOp op t) = specOp op (fun k => get k t) x := by
  cases op with
  | ins k v =>
    simp only [applyOp, specOp, insertT]
    by_cases hx : x = k
    · subst hx
      rw [if_pos rfl, get_upsert_self h]
    · rw [if_neg hx, get_upsert_ne h hx]
  | ups k f =>
    simp only [applyOp, specOp]
    by_cases hx : x = k
    · subst hx
      rw [if_pos rfl, get_upsert_self h]
    · rw [if_neg hx, get_upsert_ne h hx]
  | upd k f =>
    simp only [applyOp, specOp]
    by_cases hx : x = k
    · subst hx
      rw [if_pos rfl, get_updateT_self h]
    · rw [if_neg hx, get_updateT_ne h hx]
  | rem k =>
    simp only [applyOp, specOp]
    by_cases hx : x = k
    · subst hx
      rw [if_pos rfl, get_removeT_self h]
    · rw [if_neg hx, get_removeT_ne h hx]

theorem get_applyOps (ops : List (MapOp K V)) :
    ∀ t : Tree K V, KSorted (inorder t) →
      ∀ x, get x (applyOps ops t) = specOps ops (fun k => get k t) x := by
  induction ops with
  | nil => intro t _ x; rfl
  | cons op ops ih =>
    intro t h x
    have hstep : (fun k => get k (applyOp op t)) = specOp op (fun k => get k t) :=
      funext fun k => get_applyOp op h k
    have := ih (applyOp op t) (KSorted_inorder_applyOp op h) x
    simpa [applyOps, specOps, hstep] using this

theorem get_applyOp_not_writes {op : MapOp K V} {k : K} {t : Tree K V}
    (h : KSorted (inorder t)) (hw : ¬writesKey op k) :
    get k (applyOp op t) = get k t := by
  cases op with
  | ins a v =>
    simp only [writesKey] at hw
    exact get_upsert_ne h (Ne.symm hw)
  | ups a f =>
    simp only [writesKey] at hw
    exact get_upsert_ne h (Ne.symm hw)
  | upd a f =>
    simp only [writesKey] at hw
    exact get_updateT_ne h (Ne.symm hw)
  | rem a =>
    simp only [writesKey] at hw
    exact get_removeT_ne h (Ne.symm hw)

theorem get_applyOps_not_writes (ops : List (MapOp K V)) :
    ∀ t : Tree K V, KSorted (inorder t) → ∀ k : K,
      (∀ op ∈ ops, ¬writesKey op k) → get k (applyOps ops t) = get k t := by
  induction ops with
  | nil => intro t _ _ _; rfl
  | cons op ops ih =>
    intro t h k hw
    have h1 : get k (applyOps ops (applyOp op t)) = get k (applyOp op t) :=
      ih (applyOp op t) (KSorted_inorder_applyOp op h) k
        fun o ho => hw o (List.mem_cons_of_mem _ ho)
    have h2 : get k (applyOp op t) = get k t :=
      get_applyOp_not_writes h (hw op (List.mem_cons_self _ _))
    simpa [applyOps, h2] using h1

theorem applyOps_append (ops1 ops2 : List (MapOp K V)) (t : Tree K V) :
    applyOps (ops1 ++ ops2) t = applyOps ops2 (applyOps ops1 t) := by
  simp [applyOps, List.foldl_append]

theorem KSorted_inorder_nil : KSorted (inorder (nil : Tree K V)) := by
  simp [inorder, KSorted]

end Tree

/-!
The persistent tree of `storage/avl/node.rs` and `storage/avl/mod.rs`,
embedded a second time, operation by operation, so that the observational
equivalence between the repository's two AVL implementations can be stated
and proved rather than assumed.  The `Node` struct itself is field-for-field
identical in the two files, so the `Tree` type is shared; the operations
below are transliterated from `storage/avl/node.rs` (they are textually
identical to those of `storage/avl.rs`, which is the fact the equivalence
proof makes precise).  `MvccAvl` (in `storage/avl/mvcc.rs`) wraps the
persistent map in a snapshot-and-swap cell; under the single-writer sequential
semantics used here each mutating call replaces the current root by the
result of the corresponding persistent operation, which is exactly the state
threading performed by `applyOpsP`.
-/

namespace PersAvl

open Tree

variable {K V : Type} [LinearOrder K]

/-- `height` helper of `storage/avl/node.rs`. -/
def heightP : Tree K V → Nat
  | nil => 0
  | node _ _ h _ _ => h

/-- `Node::recompute_height` of `storage/avl/node.rs`. -/
def recomputeHeightP : Tree K V → Tree K V
  | nil => nil
  | node k v _ l r => node k v (1 + max (heightP l) (heightP r)) l r

/-- `Node::balance` of `storage/avl/node.rs`. -/
def balanceP : Tree K V → Int
  | nil => 0
  | node _ _ _ l r => (heightP l : Int) - (heightP r : Int)

/-- Root key, modelling the `l_key` / `r_key` computation of
`storage/avl/node.rs`. -/
def keyOfP : Tree K V → Option K
  | nil => none
  | node k _ _ _ _ => some k

/-- `Node::rotate_left` of `storage/avl/node.rs`. -/
def rotateLeftP : Tree K V → Tree K V
  | nil => nil
  | node k v h l r =>
    match r with
    | nil => node k v h l nil
    | node rk rv rh rl rr =>
      recomputeHeightP (node rk rv rh (recomputeHeightP (node k v h l rl)) rr)

/-- `Node::rotate_right` of `storage/avl/node.rs`. -/
def rotateRightP : Tree K V → Tree K V
  | nil => nil
  | node k v h l r =>
    match l with
    | nil => node k v h nil r
    | node lk lv lh ll lr =>
      recomputeHeightP (node lk lv lh ll (recomputeHeightP (node k v h lr r)))

/-- `Node::rebalance_insert` of `storage/avl/node.rs`. -/
def rebalanceInsertP : Tree K V → Tree K V
  | nil => nil
  | node k v h l r =>
    if 1 < balanceP (node k v h l r) ∧ gtOpt k (keyOfP l) then
      rotateRightP (node k v h l r)
    else if balanceP (node k v h l r) < -1 ∧ ltOpt k (keyOfP r) then
      rotateLeftP (node k v h l r)
    else if 1 < balanceP (node k v h l r) ∧ gtOpt k (keyOfP l) then
      rotateRightP (recomputeHeightP (node k v h (rotateLeftP l) r))
    else if balanceP (node k v h l r) < -1 ∧ ltOpt k (keyOfP r) then
      rotateLeftP (recomputeHeightP (node k v h l (rotateRightP r)))
    else node k v h l r

/-- `Node::rebalance_remove` of `storage/avl/node.rs`. -/
def rebalanceRemoveP : Tree K V → Tree K V
  | nil => nil
  | node k v h l r =>
    if 1 < balanceP (node k v h l r) ∧ 0 ≤ balanceP l then
      rotateRightP (node k v h l r)
    else if 1 < balanceP (node k v h l r) ∧ balanceP l < 0 then
      rotateRightP (recomputeHeightP (node k v h (rotateLeftP l) r))
    else if balanceP (node k v h l r) < -1 ∧ balanceP r ≤ 0 then
      rotateLeftP (node k v h l r)
    else if balanceP (node k v h l r) < -1 ∧ 0 < balanceP r then
      rotateLeftP (recomputeHeightP (node k v h l (rotateRightP r)))
    else node k v h l r

/-- `Node::upsert` plus the persistent `Avl::upsert` wrapper of
`storage/avl/mod.rs` (fresh leaf on an absent root). -/
def upsertP (k : K) (f : Option V → V) : Tree K V → Tree K V
  | nil => node k (f none) 1 nil nil
  | node a v h l r =>
    if k < a then rebalanceInsertP (recomputeHeightP (node a v h (upsertP k f l) r))
    else if a < k then rebalanceInsertP (recomputeHeightP (node a v h l (upsertP k f r)))
    else node k (f (some v)) h l r

/-- Persistent `Avl::insert` of `storage/avl/mod.rs`. -/
def insertP (k : K) (v : V) (t : Tree K V) : Tree K V :=
  upsertP k (fun _ => v) t

/-- `Node::update` plus the persistent `Avl::update` wrapper. -/
def updateP (k : K) (f : V → V) : Tree K V → Tree K V
  | nil => nil
  | node a v h l r =>
    if k < a then node a v h (updateP k f l) r
    else if a < k then node a v h l (updateP k f r)
    else node a (f v) h l r

/-- `Node::max` of `storage/avl/node.rs`, on the right spine. -/
def maxEntryP : Tree K V → K × V × Nat → K × V × Nat
  | nil, d => d
  | node k v h _ r, _ => maxEntryP r (k, v, h)

/-- `Node::remove` plus the persistent `Avl::remove` wrapper. -/
def removeP (k : K) : Tree K V → Tree K V
  | nil => nil
  | node a v h l r =>
    if k < a then rebalanceRemoveP (recomputeHeightP (node a v h (removeP k l) r))
    else if a < k then rebalanceRemoveP (recomputeHeightP (node a v h l (removeP k r)))
    else
      match l, r with
      | nil, rn => rn
      | ln, nil => ln
      | ln@(node lk lv lh _ lr), rn =>
        let m := maxEntryP lr (lk, lv, lh)
        rebalanceRemoveP (recomputeHeightP (node m.1 m.2.1 m.2.2 (removeP m.1 ln) rn))

/-- `Node::get` plus the persistent `Avl::get` wrapper. -/
def getP (k : K) : Tree K V → Option V
  | nil => none
  | node a v _ l r =>
    if k < a then getP k l
    else if a < k then getP k r
    else some v

/-- `Iter::traverse_left` of `storage/avl/mod.rs`. -/
def pushLeftP : Tree K V → List (K × V × Tree K V) → List (K × V × Tree K V)
  | nil, s => s
  | node k v _ l r, s => pushLeftP l ((k, v, r) :: s)

omit [LinearOrder K] in
theorem pushLeftP_eq (t : Tree K V) (s : List (K × V × Tree K V)) :
    pushLeftP t s = pushLeft t s := by
  induction t generalizing s with
  | nil => rfl
  | node k v h l r ihl ihr => simp [pushLeftP, pushLeft, ihl]

/-- Draining the `Iter` of `storage/avl/mod.rs` (its `next` is identical to
the one in `storage/avl.rs`). -/
def drainIterP : List (K × V × Tree K V) → List (K × V)
  | [] => []
  | (k, v, r) :: rest => (k, v) :: drainIterP (pushLeftP r rest)
termination_by s => stackWeight s
decreasing_by
  rw [pushLeftP_eq]
  have h1 := stackWeight_pushLeft r rest
  rw [stackWeight_cons]
  omega

/-- Full iterator output of the persistent `Avl::iter()`. -/
def iterListP (t : Tree K V) : List (K × V) :=
  drainIterP (pushLeftP t [])

omit [LinearOrder K] in
theorem heightP_eq (t : Tree K V) : heightP t = height t := by
  cases t <;> rfl

omit [LinearOrder K] in
theorem recomputeHeightP_eq (t : Tree K V) : recomputeHeightP t = recomputeHeight t := by
  cases t <;> simp [recomputeHeightP, recomputeHeight, heightP_eq]

omit [LinearOrder K] in
theorem balanceP_eq (t : Tree K V) : balanceP t = balance t := by
  cases t <;> simp [balanceP, balance, heightP_eq]

omit [LinearOrder K] in
theorem keyOfP_eq (t : Tree K V) : keyOfP t = keyOf t := by
  cases t <;> rfl

omit [LinearOrder K] in
theorem rotateLeftP_eq (t : Tree K V) : rotateLeftP t = rotateLeft t := by
  cases t with
  | nil => rfl
  | node k v h l r =>
    cases r <;> simp [rotateLeftP, rotateLeft, recomputeHeightP_eq]

omit [LinearOrder K] in
theorem rotateRightP_eq (t : Tree K V) : rotateRightP t = rotateRight t := by
  cases t with
  | nil => rfl
  | node k v h l r =>
    cases l <;> simp [rotateRightP, rotateRight, recomputeHeightP_eq]

theorem rebalanceInsertP_eq (t : Tree K V) : rebalanceInsertP t = rebalanceInsert t := by
  cases t with
  | nil => rfl
  | node k v h l r =>
    simp only [rebalanceInsertP, rebalanceInsert, balanceP_eq, keyOfP_eq,
      rotateLeftP_eq, rotateRightP_eq, recomputeHeightP_eq]

theorem rebalanceRemoveP_eq (t : Tree K V) : rebalanceRemoveP t = rebalanceRemove t := by
  cases t with
  | nil => rfl
  | node k v h l r =>
    simp only [rebalanceRemoveP, rebalanceRemove, balanceP_eq, keyOfP_eq,
      rotateLeftP_eq, rotateRightP_eq, recomputeHeightP_eq]

theorem upsertP_eq (k : K) (f : Option V → V) :
    ∀ t : Tree K V, upsertP k f t = upsert k f t
  | nil => rfl
  | node a v h l r => by
    simp only [upsertP, upsert, upsertP_eq k f l, upsertP_eq k f r,
      rebalanceInsertP_eq, recomputeHeightP_eq]

theorem insertP_eq (k : K) (v : V) (t : Tree K V) : insertP k v t = insertT k v t :=
  upsertP_eq k _ t

theorem updateP_eq (k : K) (f : V → V) :
    ∀ t : Tree K V, updateP k f t = updateT k f t
  | nil => rfl
  | node a v h l r => by
    simp only [updateP, updateT, updateP_eq k f l, updateP_eq k f r]

omit [LinearOrder K] in
theorem maxEntryP_eq : ∀ (t : Tree K V) (d : K × V × Nat), maxEntryP t d = maxEntry t d
  | nil, d => rfl
  | node k v h l r, d => by
    simp only [maxEntryP, maxEntry, maxEntryP_eq r]

theorem removeP_eq :
    ∀ (n : Nat) (t : Tree K V), size t ≤ n → ∀ k, removeP k t = removeT k t := by
  intro n
  induction n with
  | zero =>
    intro t ht k
    cases t with
    | nil => simp [removeP, removeT]
    | node a v h l r => simp [size] at ht
  | succ n ih =>
    intro t ht k
    cases t with
    | nil => simp [removeP, removeT]
    | node a v h l r =>
      have hl : size l ≤ n := by
        simp only [size] at ht
        omega
      have hr : size r ≤ n := by
        simp only [size] at ht
        omega
      by_cases h1 : k < a
      · have e1 : removeP k (node a v h l r) =
            rebalanceRemoveP (recomputeHeightP (node a v h (removeP k l) r)) := by
          cases l <;> cases r <;> simp [removeP, h1]
        rw [e1, removeT_node_lt h1, ih l hl k, rebalanceRemoveP_eq, recomputeHeightP_eq]
      · by_cases h2 : a < k
        · have e1 : removeP k (node a v h l r) =
              rebalanceRemoveP (recomputeHeightP (node a v h l (removeP k r))) := by
            cases l <;> cases r <;> simp [removeP, not_lt_of_gt h2, h2]
          rw [e1, removeT_node_gt h2, ih r hr k, rebalanceRemoveP_eq, recomputeHeightP_eq]
        · cases l with
          | nil =>
            have e1 : removeP k (node a v h nil r) = r := by
              cases r <;> simp [removeP, h1, h2]
            rw [e1, removeT_node_eq_nil_left h1 h2]
          | node lk lv lh ll lr =>
            cases r with
            | nil =>
              have e1 : removeP k (node a v h (node lk lv lh ll lr) nil) =
                  node lk lv lh ll lr := by
                simp [removeP, h1, h2]
              rw [e1, removeT_node_eq_nil_right h1 h2]
            | node rk rv rh rl rr =>
              have e1 : removeP k (node a v h (node lk lv lh ll lr) (node rk rv rh rl rr)) =
                  rebalanceRemoveP (recomputeHeightP
                    (node (maxEntryP lr (lk, lv, lh)).1 (maxEntryP lr (lk, lv, lh)).2.1
                      (maxEntryP lr (lk, lv, lh)).2.2
                      (removeP (maxEntryP lr (lk, lv, lh)).1 (node lk lv lh ll lr))
                      (node rk rv rh rl rr))) := by
                simp [removeP, h1, h2]
              rw [e1, removeT_node_eq_splice h1 h2]
              rw [maxEntryP_eq, ih (node lk lv lh ll lr) hl,
                rebalanceRemoveP_eq, recomputeHeightP_eq]

theorem removeP_eq_removeT (k : K) (t : Tree K V) : removeP k t = removeT k t :=
  removeP_eq (size t) t le_rfl k

theorem getP_eq (k : K) : ∀ t : Tree K V, getP k t = Tree.get k t
  | nil => rfl
  | node a v h l r => by
    simp only [getP, Tree.get, getP_eq k l, getP_eq k r]

omit [LinearOrder K] in
theorem drainIterP_eq : ∀ s : List (K × V × Tree K V), drainIterP s = drainIter s := by
  intro s
  induction s using drainIterP.induct with
  | case1 => rw [drainIterP, drainIter]
  | case2 k v r rest ih =>
    rw [drainIterP, drainIter, pushLeftP_eq] at *
    rw [ih]

omit [LinearOrder K] in
theorem iterListP_eq (t : Tree K V) : iterListP t = iterList t := by
  rw [iterListP, iterList, pushLeftP_eq, drainIterP_eq]

/-- Apply one `MapOp` through the persistent map inside the `MvccAvl` cell:
each `MvccAvl` mutator takes a snapshot, applies the persistent operation and
installs the result as the new root. -/
def applyOpP : MapOp K V → Tree K V → Tree K V
  | MapOp.ins k v, t => insertP k v t
  | MapOp.ups k f, t => upsertP k f t
  | MapOp.upd k f, t => updateP k f t
  | MapOp.rem k, t => removeP k t

/-- Apply a sequence of operations through the `MvccAvl` cell, starting from
the given root. -/
def applyOpsP (ops : List (MapOp K V)) (t : Tree K V) : Tree K V :=
  ops.foldl (fun t op => applyOpP op t) t

theorem applyOpP_eq (op : MapOp K V) (t : Tree K V) :
    applyOpP op t = Tree.applyOp op t := by
  cases op with
  | ins k v => exact insertP_eq k v t
  | ups k f => exact upsertP_eq k f t
  | upd k f => exact updateP_eq k f t
  | rem k => exact removeP_eq_removeT k t

theorem applyOpsP_eq (ops : List (MapOp K V)) :
    ∀ t : Tree K V, applyOpsP ops t = Tree.applyOps ops t := by
  induction ops with
  | nil => intro t; rfl
  | cons op ops ih =>
    intro t
    simp only [applyOpsP, Tree.applyOps, List.foldl_cons]
    rw [applyOpP_eq]
    exact ih (Tree.applyOp op t)

end PersAvl

/-!
The posting store (`storage/avl_storage.rs`), the intern pool (`intern.rs`)
and the query path of the indexer (`indexer.rs`).  `AvlStorage` and
`InternPool` are written against the interior-mutability tree of
`storage/avl.rs` (their calls mutate `self.avl` / `self.values` in place), so
the embedding threads the tree state explicitly through each operation.
`Arc` allocation identity is modelled by a monotone allocation counter in the
pool: `InternRef` equality (`ptr::eq` in the source) is identity of
allocation ids.

In the source the term type is `String` and the path type is a canonicalised
`PathBuf`; both enter the algorithms only through their `Ord`, `Eq` and
`Clone` instances (paths additionally through the injective-on-canonical-paths
display conversion at the very end of `query`), so the embedding is
parametric in two linearly ordered types `T` (terms) and `P` (paths).
-/

/-- `Token` from `tokenise.rs`: a parsed value and its byte offset in the
source text (`u64`, never arithmetically combined, embedded as `Nat`). -/
structure Token (T : Type) where
  value : T
  offset : Nat
deriving DecidableEq

/-- `Token::new`: a token with the given value at offset zero (used by
`Indexer::query` on the query term). -/
def Token.new {T : Type} (value : T) : Token T :=
  ⟨value, 0⟩

/-- `InternRef` from `intern.rs`: a shared handle (`Arc<PathBuf>`).  The
allocation the `Arc` points to is modelled by `id`, the pointed-to path
content by `val`. -/
structure InternRef (P : Type) where
  id : Nat
  val : P
deriving DecidableEq

/-- `impl PartialEq for InternRef`: `ptr::eq(Arc::as_ptr(&self.0),
Arc::as_ptr(&other.0))` — identity of the underlying allocation. -/
def InternRef.refEq {P : Type} (a b : InternRef P) : Bool :=
  a.id == b.id

section StorageLayer

variable {P T : Type} [LinearOrder P] [LinearOrder T]

/-- `InternPool` from `intern.rs`: an (interior-mutability) `Avl` from values
to shared handles, plus the allocation counter that models `Arc::new`. -/
structure InternPool (P : Type) where
  values : Tree P (InternRef P)
  next : Nat

/-- `InternPool::new`. -/
def InternPool.new {P : Type} : InternPool P :=
  ⟨Tree.nil, 0⟩

/-- `InternPool::intern`: return the existing handle when the value is
already interned, otherwise allocate a fresh handle (`Arc::new`), insert it
into the pool and return it. -/
def InternPool.intern (pool : InternPool P) (p : P) : InternRef P × InternPool P :=
  match Tree.get p pool.values with
  | some r => (r, pool)
  | none =>
    let r : InternRef P := ⟨pool.next, p⟩
    (r, ⟨Tree.insertT p r pool.values, pool.next + 1⟩)

/-- `IndexEntry` from `storage/mod.rs`: an interned path handle and the byte
offset at which the term occurs in that file. -/
structure IndexEntry (P : Type) where
  path : InternRef P
  offset : Nat
deriving DecidableEq

/-- `AvlStorage` from `storage/avl_storage.rs`: the intern pool and the terms
map from terms to posting lists (`List<IndexEntry>`, embedded as a Lean
list: `Null` is `[]`, `Cons` is `::`, `iter` is head-to-tail). -/
structure AvlStorage (P T : Type) where
  internPool : InternPool P
  avl : Tree T (List (IndexEntry P))

/-- `AvlStorage::new`. -/
def AvlStorage.new {P T : Type} : AvlStorage P T :=
  ⟨InternPool.new, Tree.nil⟩

/-- `AvlStorage::get`: the posting list stored for the given term, if any. -/
def AvlStorage.get (word : T) (st : AvlStorage P T) : Option (List (IndexEntry P)) :=
  Tree.get word st.avl

/-- The fold inside `AvlStorage::purge` that rebuilds one posting list:
`e.iter().fold(Null, |l, e| if e.path == ip then l else Cons(e, l))` —
keeps the entries whose handle differs from `ip`, in reverse order. -/
def purgeFilter (ip : InternRef P) (l : List (IndexEntry P)) : List (IndexEntry P) :=
  l.foldl (fun acc e => if e.path.refEq ip then acc else e :: acc) []

/-- `AvlStorage::purge`: intern the path, then walk a snapshot of the terms
map; for every term whose list mentions the handle, update the current map,
rebuilding that term's list without the handle.  The term key itself is never
removed. -/
def AvlStorage.purge (st : AvlStorage P T) (path : P) : AvlStorage P T :=
  let ip := (st.internPool.intern path).1
  let pool := (st.internPool.intern path).2
  let snapshot := Tree.inorder st.avl
  { internPool := pool
    avl := snapshot.foldl
      (fun tr kv =>
        if kv.2.any (fun e => e.path.refEq ip) then
          Tree.updateT kv.1 (purgeFilter ip) tr
        else tr)
      st.avl }

/-- `AvlStorage::insert`: upsert on the token's value, prepending a fresh
`IndexEntry` (with the interned path handle) to the existing list, or to the
empty list when the term is new. -/
def AvlStorage.insert (st : AvlStorage P T) (path : P) (token : Token T) :
    AvlStorage P T :=
  let ip := (st.internPool.intern path).1
  let pool := (st.internPool.intern path).2
  { internPool := pool
    avl := Tree.upsert token.value
      (fun entries => ⟨ip, token.offset⟩ :: entries.getD []) st.avl }

/-- `Indexer::normalise`: `try_fold` of the token through the configured
normalisers (`TokenNormaliser::normalise`), in order; the first normaliser
returning `none` drops the token. -/
def normaliseChain : List (Token T → Option (Token T)) → Token T → Option (Token T)
  | [], t => some t
  | n :: ns, t =>
    match n t with
    | some t2 => normaliseChain ns t2
    | none => none

/-- The lookup key computed at the start of `Indexer::query`:
`self.normalise(Token::new(term)).map_or_else(|| term, |t| t.value)` — the
fully normalised value when every normaliser accepts, the raw term
otherwise. -/
def queryKey (ns : List (Token T → Option (Token T))) (term : T) : T :=
  match normaliseChain ns (Token.new term) with
  | some t => t.value
  | none => term

/-- `Indexer::query`: normalise the term into a lookup key, snapshot-read the
posting list and return the set of distinct paths (a `HashSet` of path
strings in the source, deduplicating across offsets). -/
def Indexer.query (ns : List (Token T → Option (Token T))) (st : AvlStorage P T)
    (term : T) : Finset P :=
  match AvlStorage.get (queryKey ns term) st with
  | some entries => (entries.map fun e => e.path.val).toFinset
  | none => ∅

/-- `Indexer::index_file` with file IO abstracted: `tokens` is the sequence
the tokeniser yields for the file's contents; each token is normalised by the
configured chain (a rejected token is dropped) and inserted into the
storage. -/
def Indexer.indexFile (ns : List (Token T → Option (Token T)))
    (st : AvlStorage P T) (path : P) (tokens : List (Token T)) : AvlStorage P T :=
  tokens.foldl
    (fun st tok =>
      match normaliseChain ns tok with
      | some t => st.insert path t
      | none => st)
    st

/-- `Indexer::clear_from_index`: delegates to `AvlStorage::purge`. -/
def Indexer.clearFromIndex (st : AvlStorage P T) (path : P) : AvlStorage P T :=
  st.purge path

/-- One observable posting-store operation (the mutating interface of
`AvlStorage`). -/
inductive StorageOp (P T : Type) where
  | ins (path : P) (token : Token T)
  | purge (path : P)

/-- Apply one storage operation. -/
def applyStorageOp : StorageOp P T → AvlStorage P T → AvlStorage P T
  | StorageOp.ins p tok, st => st.insert p tok
  | StorageOp.purge p, st => st.purge p

/-- Apply a sequence of storage operations in order. -/
def applyStorageOps (ops : List (StorageOp P T)) (st : AvlStorage P T) :
    AvlStorage P T :=
  ops.foldl (fun st op => applyStorageOp op st) st

/-- Sortedness of the terms map underlying a storage state; it holds for
every state reachable from `AvlStorage.new`. -/
def StorageSorted (st : AvlStorage P T) : Prop :=
  KSorted (Tree.inorder st.avl)

instance (st : AvlStorage P T) : Decidable (StorageSorted st) := by
  unfold StorageSorted; infer_instance

/-- Consistency of an intern pool: the map is sorted, every stored handle was
allocated below the counter, and distinct values hold distinct allocations. -/
def PoolInv (pool : InternPool P) : Prop :=
  KSorted (Tree.inorder pool.values) ∧
  (∀ p ∈ Tree.inorder pool.values, p.2.id < pool.next) ∧
  (∀ p ∈ Tree.inorder pool.values, ∀ q ∈ Tree.inorder pool.values,
    p.2.id = q.2.id → p.1 = q.1)

instance (pool : InternPool P) : Decidable (PoolInv pool) := by
  unfold PoolInv; infer_instance

end StorageLayer

theorem lookupA_some_mem {K V : Type} [LinearOrder K] {k : K} {v : V} :
    ∀ {xs : List (K × V)}, lookupA k xs = some v → (k, v) ∈ xs := by
  intro xs
  induction xs with
  | nil => intro h; simp [lookupA] at h
  | cons p xs ih =>
    obtain ⟨a, b⟩ := p
    intro h
    simp only [lookupA] at h
    split at h
    · rename_i hak
      subst hak
      obtain rfl : b = v := by injection h
      exact List.mem_cons_self _ _
    · exact List.mem_cons_of_mem _ (ih h)

theorem lookupA_none_keys {K V : Type} [LinearOrder K] {k : K} :
    ∀ {xs : List (K × V)}, lookupA k xs = none → ∀ p ∈ xs, p.1 ≠ k := by
  intro xs
  induction xs with
  | nil => intro _ p hp; simp at hp
  | cons q xs ih =>
    obtain ⟨a, b⟩ := q
    intro h p hp
    simp only [lookupA] at h
    split at h
    · exact absurd h (by simp)
    · rcases List.mem_cons.mp hp with rfl | hp
      · assumption
      · exact ih h p hp

theorem mem_upsertA_of_not_mem_keys {K V : Type} [LinearOrder K] {k : K}
    {f : Option V → V} :
    ∀ {xs : List (K × V)}, k ∉ xs.map Prod.fst →
      ∀ q ∈ upsertA k f xs, q = (k, f none) ∨ q ∈ xs := by
  intro xs
  induction xs with
  | nil => intro _ q hq; simp [upsertA] at hq; simp [hq]
  | cons p xs ih =>
    obtain ⟨a, b⟩ := p
    intro hk q hq
    have hak : a ≠ k := by
      intro hh
      exact hk (by simp [hh])
    simp only [upsertA] at hq
    split at hq
    · rcases List.mem_cons.mp hq with rfl | hq
      · exact Or.inl rfl
      · exact Or.inr hq
    · split at hq
      · rcases List.mem_cons.mp hq with rfl | hq
        · exact Or.inr (List.mem_cons_self _ _)
        · rcases ih (fun hh => hk (List.mem_cons_of_mem _ hh)) q hq with h1 | h1
          · exact Or.inl h1
          · exact Or.inr (List.mem_cons_of_mem _ h1)
      · exact absurd (le_antisymm (not_lt.mp (by assumption)) (not_lt.mp (by assumption))) hak

section StorageLemmas

variable {P T : Type} [LinearOrder P] [LinearOrder T]

theorem purgeFilter_all {ip : InternRef P} {l : List (IndexEntry P)}
    (h : ∀ e ∈ l, e.path.refEq ip) : purgeFilter ip l = [] := by
  have hgen : ∀ (l : List (IndexEntry P)) (acc : List (IndexEntry P)),
      (∀ e ∈ l, e.path.refEq ip) →
      l.foldl (fun acc e => if e.path.refEq ip then acc else e :: acc) acc = acc := by
    intro l
    induction l with
    | nil => intro acc _; rfl
    | cons e l ih =>
      intro acc hall
      simp only [List.foldl_cons]
      rw [if_pos (hall e (List.mem_cons_self _ _))]
      exact ih acc fun x hx => hall x (List.mem_cons_of_mem _ hx)
  exact hgen l [] h

theorem purgeFilter_eq_reverse_filter (ip : InternRef P) (l : List (IndexEntry P)) :
    purgeFilter ip l = (l.filter fun e => !(e.path.refEq ip)).reverse := by
  have hgen : ∀ (l acc : List (IndexEntry P)),
      l.foldl (fun acc e => if e.path.refEq ip then acc else e :: acc) acc =
        (l.filter fun e => !(e.path.refEq ip)).reverse ++ acc := by
    intro l
    induction l with
    | nil => intro acc; simp
    | cons e l ih =>
      intro acc
      simp only [List.foldl_cons, List.filter_cons]
      by_cases he : e.path.refEq ip
      · rw [if_pos he]
        simp [he, ih]
      · rw [if_neg he]
        simp only [he]
        rw [ih (e :: acc)]
        simp
  simpa using hgen l []

theorem StorageSorted_new : StorageSorted (AvlStorage.new : AvlStorage P T) :=
  Tree.KSorted_inorder_nil

theorem StorageSorted_insert {st : AvlStorage P T} (h : StorageSorted st)
    (p : P) (tok : Token T) : StorageSorted (st.insert p tok) :=
  Tree.KSorted_inorder_upsert h

theorem StorageSorted_purge_fold (ip : InternRef P) :
    ∀ (pairs : List (T × List (IndexEntry P))) (tr : Tree T (List (IndexEntry P))),
      KSorted (Tree.inorder tr) →
      KSorted (Tree.inorder (pairs.foldl
        (fun tr kv =>
          if kv.2.any (fun e => e.path.refEq ip) then
            Tree.updateT kv.1 (purgeFilter ip) tr
          else tr)
        tr)) := by
  intro pairs
  induction pairs with
  | nil => intro tr h; exact h
  | cons kv pairs ih =>
    intro tr h
    simp only [List.foldl_cons]
    apply ih
    split
    · exact Tree.KSorted_inorder_updateT h
    · exact h

theorem StorageSorted_purge {st : AvlStorage P T} (h : StorageSorted st) (p : P) :
    StorageSorted (st.purge p) :=
  StorageSorted_purge_fold _ _ _ h

theorem StorageSorted_indexFile {st : AvlStorage P T}
    (ns : List (Token T → Option (Token T))) (p : P) :
    ∀ (toks : List (Token T)), StorageSorted st →
      StorageSorted (Indexer.indexFile ns st p toks) := by
  suffices hgen : ∀ (toks : List (Token T)) (st : AvlStorage P T), StorageSorted st →
      StorageSorted (Indexer.indexFile ns st p toks) by
    intro toks h
    exact hgen toks st h
  intro toks
  induction toks with
  | nil => intro st h; exact h
  | cons tok toks ih =>
    intro st h
    simp only [Indexer.indexFile, List.foldl_cons]
    apply ih
    split
    · exact StorageSorted_insert h _ _
    · exact h

theorem StorageSorted_applyStorageOps :
    ∀ (ops : List (StorageOp P T)) (st : AvlStorage P T), StorageSorted st →
      StorageSorted (applyStorageOps ops st) := by
  intro ops
  induction ops with
  | nil => intro st h; exact h
  | cons op ops ih =>
    intro st h
    apply ih
    cases op with
    | ins p tok => exact StorageSorted_insert h p tok
    | purge p => exact StorageSorted_purge h p

theorem AvlStorage.get_insert_self {st : AvlStorage P T} (h : StorageSorted st)
    (p : P) (tok : Token T) :
    AvlStorage.get tok.value (st.insert p tok) =
      some (⟨(st.internPool.intern p).1, tok.offset⟩ ::
        (AvlStorage.get tok.value st).getD []) := by
  simp only [AvlStorage.get, AvlStorage.insert]
  rw [Tree.get_upsert_self h]

theorem AvlStorage.get_insert_ne {st : AvlStorage P T} (h : StorageSorted st)
    {w : T} (p : P) {tok : Token T} (hw : w ≠ tok.value) :
    AvlStorage.get w (st.insert p tok) = AvlStorage.get w st := by
  simp only [AvlStorage.get, AvlStorage.insert]
  rw [Tree.get_upsert_ne h hw]

theorem purge_fold_get_not_mem (ip : InternRef P) {w : T} :
    ∀ (pairs : List (T × List (IndexEntry P))) (tr : Tree T (List (IndexEntry P))),
      KSorted (Tree.inorder tr) → (∀ kv ∈ pairs, kv.1 ≠ w) →
      Tree.get w (pairs.foldl
        (fun tr kv =>
          if kv.2.any (fun e => e.path.refEq ip) then
            Tree.updateT kv.1 (purgeFilter ip) tr
          else tr)
        tr) = Tree.get w tr := by
  intro pairs
  induction pairs with
  | nil => intro tr _ _; rfl
  | cons kv pairs ih =>
    intro tr h hne
    simp only [List.foldl_cons]
    have hk : kv.1 ≠ w := hne kv (List.mem_cons_self _ _)
    split
    · rw [ih _ (Tree.KSorted_inorder_updateT h)
        fun q hq => hne q (List.mem_cons_of_mem _ hq)]
      exact Tree.get_updateT_ne h (Ne.symm hk)
    · exact ih _ h fun q hq => hne q (List.mem_cons_of_mem _ hq)

theorem purge_fold_get_mem (ip : InternRef P) {w : T} {v : List (IndexEntry P)} :
    ∀ (pairs : List (T × List (IndexEntry P))) (tr : Tree T (List (IndexEntry P))),
      KSorted (Tree.inorder tr) →
      pairs.Pairwise (fun p q => p.1 ≠ q.1) → (w, v) ∈ pairs →
      Tree.get w (pairs.foldl
        (fun tr kv =>
          if kv.2.any (fun e => e.path.refEq ip) then
            Tree.updateT kv.1 (purgeFilter ip) tr
          else tr)
        tr) =
        if v.any (fun e => e.path.refEq ip) then
          (Tree.get w tr).map (purgeFilter ip)
        else Tree.get w tr := by
  intro pairs
  induction pairs with
  | nil => intro tr _ _ hmem; simp at hmem
  | cons kv pairs ih =>
    intro tr h hpw hmem
    rw [List.pairwise_cons] at hpw
    obtain ⟨hhead, htail⟩ := hpw
    simp only [List.foldl_cons]
    rcases List.mem_cons.mp hmem with heq | hmem2
    · obtain rfl : kv = (w, v) := heq.symm
      have hrest : ∀ q ∈ pairs, q.1 ≠ w := by
        intro q hq
        exact Ne.symm (hhead q hq)
      split
      · rw [purge_fold_get_not_mem ip pairs _ (Tree.KSorted_inorder_updateT h) hrest]
        exact Tree.get_updateT_self h
      · rw [purge_fold_get_not_mem ip pairs _ h hrest]
    · have hk : kv.1 ≠ w := by
        have := hhead (w, v) hmem2
        exact this
      split
      · rw [ih _ (Tree.KSorted_inorder_updateT h) htail hmem2]
        rw [Tree.get_updateT_ne h (Ne.symm hk)]
      · rw [ih _ h htail hmem2]

theorem AvlStorage.get_purge {st : AvlStorage P T} (h : StorageSorted st)
    (p : P) (w : T) :
    AvlStorage.get w (st.purge p) =
      match AvlStorage.get w st with
      | none => none
      | some l =>
        if l.any (fun e => e.path.refEq (st.internPool.intern p).1) then
          some (purgeFilter (st.internPool.intern p).1 l)
        else some l := by
  have hpw : (Tree.inorder st.avl).Pairwise (fun a b => a.1 ≠ b.1) :=
    List.Pairwise.imp (fun hab => ne_of_lt hab) h
  have hget : Tree.get w st.avl = lookupA w (Tree.inorder st.avl) :=
    Tree.get_eq_lookupA w st.avl h
  match hcase : AvlStorage.get w st with
  | none =>
    have hnone : lookupA w (Tree.inorder st.avl) = none := by
      rw [← hget]
      exact hcase
    have hne : ∀ kv ∈ Tree.inorder st.avl, kv.1 ≠ w := lookupA_none_keys hnone
    simp only [AvlStorage.get, AvlStorage.purge]
    rw [purge_fold_get_not_mem _ _ _ h hne]
    exact hcase
  | some l =>
    have hsome : lookupA w (Tree.inorder st.avl) = some l := by
      rw [← hget]
      exact hcase
    have hmem : (w, l) ∈ Tree.inorder st.avl := lookupA_some_mem hsome
    simp only [AvlStorage.get, AvlStorage.purge]
    rw [purge_fold_get_mem _ _ _ h hpw hmem]
    have hl : Tree.get w st.avl = some l := hcase
    rw [hl]
    split
    · rfl
    · rfl

end StorageLemmas

namespace Tree

theorem get_mem_inorder {K V : Type} [LinearOrder K] {t : Tree K V}
    (h : KSorted (inorder t)) {x : K} {v : V} (hg : get x t = some v) :
    (x, v) ∈ inorder t := by
  apply lookupA_some_mem
  rw [← get_eq_lookupA x t h]
  exact hg

theorem keys_inorder_updateT {K V : Type} [LinearOrder K] (k : K) (f : V → V) :
    ∀ t : Tree K V,
      (inorder (updateT k f t)).map Prod.fst = (inorder t).map Prod.fst
  | nil => rfl
  | node a v h l r => by
    simp only [updateT]
    split_ifs <;>
      simp [inorder, keys_inorder_updateT k f l, keys_inorder_updateT k f r]

end Tree

section InternLemmas

variable {P : Type} [LinearOrder P]

theorem KSorted_intern {pool : InternPool P}
    (h : KSorted (Tree.inorder pool.values)) (p : P) :
    KSorted (Tree.inorder ((pool.intern p).2).values) := by
  cases hc : Tree.get p pool.values with
  | some r => simpa [InternPool.intern, hc] using h
  | none =>
    simp only [InternPool.intern, hc]
    exact Tree.KSorted_inorder_upsert h

theorem intern_get_self {pool : InternPool P}
    (h : KSorted (Tree.inorder pool.values)) (p : P) :
    Tree.get p ((pool.intern p).2).values = some (pool.intern p).1 := by
  cases hc : Tree.get p pool.values with
  | some r => simp [InternPool.intern, hc]
  | none =>
    simp only [InternPool.intern, hc, Tree.insertT]
    rw [Tree.get_upsert_self h]

theorem intern_of_get_some {pool : InternPool P} {p : P} {r : InternRef P}
    (h : Tree.get p pool.values = some r) : pool.intern p = (r, pool) := by
  simp [InternPool.intern, h]

theorem intern_intern_self {pool : InternPool P}
    (h : KSorted (Tree.inorder pool.values)) (p : P) :
    (((pool.intern p).2).intern p).1 = (pool.intern p).1 := by
  rw [intern_of_get_some (intern_get_self h p)]

theorem PoolInv_new : PoolInv (InternPool.new : InternPool P) := by
  refine ⟨Tree.KSorted_inorder_nil, ?_, ?_⟩ <;>
    simp [InternPool.new, Tree.inorder]

theorem PoolInv_intern {pool : InternPool P} (h : PoolInv pool) (p : P) :
    PoolInv (pool.intern p).2 := by
  obtain ⟨hs, hb, hinj⟩ := h
  cases hc : Tree.get p pool.values with
  | some r => simpa [InternPool.intern, hc] using ⟨hs, hb, hinj⟩
  | none =>
    have hnk : p ∉ (Tree.inorder pool.values).map Prod.fst := by
      intro hmem
      obtain ⟨q, hq, hq1⟩ := List.mem_map.mp hmem
      exact lookupA_none_keys (by rw [← Tree.get_eq_lookupA p pool.values hs]; exact hc)
        q hq hq1
    have hmemchar : ∀ q ∈ Tree.inorder (Tree.insertT p ⟨pool.next, p⟩ pool.values),
        q = (p, (⟨pool.next, p⟩ : InternRef P)) ∨ q ∈ Tree.inorder pool.values := by
      intro q hq
      rw [Tree.insertT, Tree.inorder_upsert p _ pool.values hs] at hq
      exact mem_upsertA_of_not_mem_keys hnk q hq
    refine ⟨?_, ?_, ?_⟩
    · simp only [InternPool.intern, hc]
      exact Tree.KSorted_inorder_upsert hs
    · simp only [InternPool.intern, hc]
      intro q hq
      rcases hmemchar q hq with rfl | hq2
      · simp
      · exact lt_trans (hb q hq2) (Nat.lt_succ_self _)
    · simp only [InternPool.intern, hc]
      intro q1 hq1 q2 hq2 hid
      rcases hmemchar q1 hq1 with rfl | hm1 <;> rcases hmemchar q2 hq2 with rfl | hm2
      · rfl
      · exfalso
        have h2 := hb q2 hm2
        simp only at hid
        omega
      · exfalso
        have h2 := hb q1 hm1
        simp only at hid
        omega
      · exact hinj q1 hm1 q2 hm2 hid

end InternLemmas

section StorageKeys

variable {P T : Type} [LinearOrder P] [LinearOrder T]

theorem purge_fold_keys (ip : InternRef P) :
    ∀ (pairs : List (T × List (IndexEntry P))) (tr : Tree T (List (IndexEntry P))),
      (Tree.inorder (pairs.foldl
        (fun tr kv =>
          if kv.2.any (fun e => e.path.refEq ip) then
            Tree.updateT kv.1 (purgeFilter ip) tr
          else tr)
        tr)).map Prod.fst = (Tree.inorder tr).map Prod.fst := by
  intro pairs
  induction pairs with
  | nil => intro tr; rfl
  | cons kv pairs ih =>
    intro tr
    simp only [List.foldl_cons]
    rw [ih]
    split
    · exact Tree.keys_inorder_updateT _ _ _
    · rfl

theorem keys_purge (st : AvlStorage P T) (p : P) :
    (Tree.inorder (st.purge p).avl).map Prod.fst =
      (Tree.inorder st.avl).map Prod.fst := by
  simp only [AvlStorage.purge]
  exact purge_fold_keys _ _ _

theorem keys_insert {st : AvlStorage P T} (h : StorageSorted st) (p : P)
    (tok : Token T) (x : T) :
    x ∈ (Tree.inorder (st.insert p tok).avl).map Prod.fst ↔
      x = tok.value ∨ x ∈ (Tree.inorder st.avl).map Prod.fst := by
  simp only [AvlStorage.insert]
  rw [Tree.inorder_upsert _ _ _ h]
  exact mem_keys_upsertA

theorem keys_applyStorageOps :
    ∀ (ops : List (StorageOp P T)) (st : AvlStorage P T), StorageSorted st →
      ∀ x : T,
        (x ∈ (Tree.inorder (applyStorageOps ops st).avl).map Prod.fst ↔
          (∃ p tok, StorageOp.ins p tok ∈ ops ∧ tok.value = x) ∨
            x ∈ (Tree.inorder st.avl).map Prod.fst) := by
  intro ops
  induction ops with
  | nil =>
    intro st _ x
    simp [applyStorageOps]
  | cons op ops ih =>
    intro st h x
    have hstep : applyStorageOps (op :: ops) st = applyStorageOps ops (applyStorageOp op st) :=
      rfl
    rw [hstep]
    cases op with
    | ins p tok =>
      simp only [applyStorageOp]
      rw [ih _ (StorageSorted_insert h p tok) x]
      rw [keys_insert h p tok x]
      constructor
      · rintro (⟨p1, tok1, hmem, hval⟩ | rfl | hin)
        · exact Or.inl ⟨p1, tok1, List.mem_cons_of_mem _ hmem, hval⟩
        · exact Or.inl ⟨p, tok, List.mem_cons_self _ _, rfl⟩
        · exact Or.inr hin
      · rintro (⟨p1, tok1, hmem, hval⟩ | hin)
        · rcases List.mem_cons.mp hmem with heq | hmem2
          · obtain ⟨rfl, rfl⟩ : p1 = p ∧ tok1 = tok := by
              constructor <;> injection heq <;> assumption
            exact Or.inr (Or.inl hval.symm)
          · exact Or.inl ⟨p1, tok1, hmem2, hval⟩
        · exact Or.inr (Or.inr hin)
    | purge p =>
      simp only [applyStorageOp]
      rw [ih _ (StorageSorted_purge h p) x]
      rw [show (Tree.inorder (st.purge p).avl).map Prod.fst =
          (Tree.inorder st.avl).map Prod.fst from keys_purge st p]
      constructor
      · rintro (⟨p1, tok1, hmem, hval⟩ | hin)
        · exact Or.inl ⟨p1, tok1, List.mem_cons_of_mem _ hmem, hval⟩
        · exact Or.inr hin
      · rintro (⟨p1, tok1, hmem, hval⟩ | hin)
        · rcases List.mem_cons.mp hmem with heq | hmem2
          · exact absurd heq (by simp)
          · exact Or.inl ⟨p1, tok1, hmem2, hval⟩
        · exact Or.inr hin

end StorageKeys

/-!
Claim theorems.  Each theorem settles one claim of the specification against
the embedded code; witnesses instantiate the hypotheses at concrete inputs
(terms and paths are `Nat` there, which the generic storage layer allows).
-/

/-- Claim C1: for every file `f` indexed via `index_file` and every term `t`
whose only occurrences are in `f` — that is, every posting entry recorded for
the lookup key of `t` after indexing carries `f`'s interned handle — the
sequence `index_file(f); clear_from_index(f)` (purge of `f`) followed by
`query(t)` returns the empty set. -/
theorem claim_C1 {P T : Type} [LinearOrder P] [LinearOrder T]
    (ns : List (Token T → Option (Token T))) (st0 : AvlStorage P T) (f : P)
    (toks : List (Token T)) (t : T) (hsorted : StorageSorted st0)
    (honly : ∀ e ∈ (AvlStorage.get (queryKey ns t)
        (Indexer.indexFile ns st0 f toks)).getD [],
      e.path.refEq ((Indexer.indexFile ns st0 f toks).internPool.intern f).1) :
    Indexer.query ns
      (Indexer.clearFromIndex (Indexer.indexFile ns st0 f toks) f) t = ∅ := by
  have h1 : StorageSorted (Indexer.indexFile ns st0 f toks) :=
    StorageSorted_indexFile ns f toks hsorted
  have hgp := AvlStorage.get_purge h1 f (queryKey ns t)
  cases hg : AvlStorage.get (queryKey ns t) (Indexer.indexFile ns st0 f toks) with
  | none =>
    rw [hg] at hgp
    simp [Indexer.query, Indexer.clearFromIndex, hgp]
  | some l =>
    rw [hg] at hgp
    have honly2 : ∀ e ∈ l,
        e.path.refEq ((Indexer.indexFile ns st0 f toks).internPool.intern f).1 := by
      intro e he
      apply honly
      rw [hg]
      exact he
    cases l with
    | nil =>
      simp only [List.any_nil, if_neg] at hgp
      simp [Indexer.query, Indexer.clearFromIndex, hgp]
    | cons e l2 =>
      have hany : (e :: l2).any
          (fun q => q.path.refEq
            ((Indexer.indexFile ns st0 f toks).internPool.intern f).1) = true :=
        List.any_eq_true.mpr ⟨e, List.mem_cons_self _ _,
          honly2 e (List.mem_cons_self _ _)⟩
      have hgp2 : AvlStorage.get (queryKey ns t)
          ((Indexer.indexFile ns st0 f toks).purge f) =
          some (purgeFilter
            ((Indexer.indexFile ns st0 f toks).internPool.intern f).1 (e :: l2)) := by
        rw [hgp]
        exact if_pos hany
      rw [purgeFilter_all honly2] at hgp2
      simp [Indexer.query, Indexer.clearFromIndex, hgp2]

/-- Witness for C1 at a concrete input: index one token of term 3 in file 7
from the empty storage, purge file 7, query term 3 — the result is empty. -/
theorem claim_C1_witness :
    Indexer.query [] (Indexer.clearFromIndex
      (Indexer.indexFile [] (AvlStorage.new : AvlStorage Nat Nat) 7 [⟨3, 0⟩]) 7) 3 = ∅ :=
  claim_C1 [] AvlStorage.new 7 [⟨3, 0⟩] 3 (by decide) (by decide)

/-- Claim C2: for a consistent pool, interning `x` and then `y` through the
same pool yields handles that compare equal (pointer equality of the shared
allocation) iff `x = y`; in particular a repeated intern of an interned value
returns the existing handle. -/
theorem claim_C2 {P : Type} [LinearOrder P] (pool : InternPool P)
    (hinv : PoolInv pool) (x y : P) :
    ((pool.intern x).1.refEq (((pool.intern x).2).intern y).1) = true ↔ x = y := by
  obtain ⟨hs, hb, hinj⟩ := hinv
  cases hcx : Tree.get x pool.values with
  | some rx =>
    have hbx : rx.id < pool.next := hb (x, rx) (Tree.get_mem_inorder hs hcx)
    cases hcy : Tree.get y pool.values with
    | some ry =>
      simp only [InternPool.intern, hcx, hcy, InternRef.refEq, beq_iff_eq]
      constructor
      · intro hid
        exact hinj (x, rx) (Tree.get_mem_inorder hs hcx) (y, ry)
          (Tree.get_mem_inorder hs hcy) hid
      · intro hxy
        subst hxy
        rw [hcx] at hcy
        obtain rfl : rx = ry := by injection hcy
        rfl
    | none =>
      simp only [InternPool.intern, hcx, hcy, InternRef.refEq, beq_iff_eq]
      constructor
      · intro hid
        omega
      · intro hxy
        subst hxy
        rw [hcx] at hcy
        exact absurd hcy (by simp)
  | none =>
    by_cases hxy : y = x
    · subst hxy
      have hg1 : Tree.get y (Tree.insertT y ⟨pool.next, y⟩ pool.values) =
          some ⟨pool.next, y⟩ := by
        rw [Tree.insertT, Tree.get_upsert_self hs]
      simp only [InternPool.intern, hcx, hg1, InternRef.refEq, beq_iff_eq]
    · have hg2 : Tree.get y (Tree.insertT x ⟨pool.next, x⟩ pool.values) =
          Tree.get y pool.values := by
        rw [Tree.insertT, Tree.get_upsert_ne hs hxy]
      cases hcy : Tree.get y pool.values with
      | some ry =>
        have hby : ry.id < pool.next := hb (y, ry) (Tree.get_mem_inorder hs hcy)
        simp only [InternPool.intern, hcx, hg2, hcy, InternRef.refEq, beq_iff_eq]
        constructor
        · intro hid
          omega
        · intro h2
          exact absurd h2.symm hxy
      | none =>
        simp only [InternPool.intern, hcx, hg2, hcy, InternRef.refEq, beq_iff_eq]
        constructor
        · intro hid
          omega
        · intro h2
          exact absurd h2.symm hxy

/-- Witness for C2: repeated intern of the same value through a fresh pool
yields pointer-equal handles. -/
theorem claim_C2_witness :
    (((InternPool.new : InternPool Nat).intern 1).1.refEq
      ((((InternPool.new : InternPool Nat).intern 1).2).intern 1).1) = true :=
  (claim_C2 InternPool.new (by decide) 1 1).mpr rfl

/-- Counterexample to C3 as stated: after `insert(7, term 3 at offset 0)`
followed by `purge(7)`, the terms map still has the key 3 but its posting
list is empty, so "a term is present as a key iff its posting list is
non-empty" fails at a reachable state. -/
theorem claim_C3_counterexample :
    ¬ (∀ kv ∈ Tree.inorder (applyStorageOps
        [StorageOp.ins 7 ⟨3, 0⟩, StorageOp.purge 7]
        (AvlStorage.new : AvlStorage Nat Nat)).avl, kv.2 ≠ []) := by
  decide

/-- Claim C3 amended: a term is present as a key in the terms map iff some
insert in the operation history recorded that term.  Purge rebuilds posting
lists but never removes a term key, so a term whose posting list a purge
empties keeps its key, with an empty list. -/
theorem claim_C3_amended {P T : Type} [LinearOrder P] [LinearOrder T]
    (ops : List (StorageOp P T)) (x : T) :
    x ∈ (Tree.inorder (applyStorageOps ops
        (AvlStorage.new : AvlStorage P T)).avl).map Prod.fst ↔
      ∃ p tok, StorageOp.ins p tok ∈ ops ∧ tok.value = x := by
  rw [keys_applyStorageOps ops AvlStorage.new StorageSorted_new x]
  simp [AvlStorage.new, Tree.inorder]

/-- Claim C4 (code bug): inserting 3, 1, 2 into an empty map leaves a root
whose subtree heights differ by 2, in both AVL implementations.  The
rebalance-after-insert guards compare the node's own key against its child's
key — a comparison the search-tree ordering makes always true on the heavy
side — so the third and fourth (double-rotation) branches are dead code and
the left-right / right-left cases receive a wrong single rotation.  This
contradicts the module documentation ("guarantees the difference in branches
height to be no more than one") and the claim. -/
theorem claim_C4_balance_violation :
    Tree.isBalanced (Tree.insertT 2 0 (Tree.insertT 1 0 (Tree.insertT 3 0
      (Tree.nil : Tree Nat Nat)))) = false ∧
    Tree.isBalanced (PersAvl.insertP 2 0 (PersAvl.insertP 1 0 (PersAvl.insertP 3 0
      (Tree.nil : Tree Nat Nat)))) = false := by
  decide

/-- Counterexample to C5 as stated: inserting the same `(path, token)`
association twice (file 7, term 3, offset 0) leaves two postings with that
offset for that term and path, not exactly one. -/
theorem claim_C5_counterexample :
    ¬ (((AvlStorage.get 3 (applyStorageOps
        [StorageOp.ins 7 ⟨3, 0⟩, StorageOp.ins 7 ⟨3, 0⟩]
        (AvlStorage.new : AvlStorage Nat Nat))).getD []).countP
          (fun e => e.path.val == 7 && e.offset == 0) = 1) := by
  decide

/-- Claim C5 amended: `insert` unconditionally prepends a fresh posting entry
to the term's list; repeating the same insert therefore prepends a duplicate
entry (same handle, same offset) instead of leaving a single one. -/
theorem claim_C5_amended {P T : Type} [LinearOrder P] [LinearOrder T]
    (st : AvlStorage P T) (hsorted : StorageSorted st)
    (hpool : KSorted (Tree.inorder st.internPool.values)) (p : P) (tok : Token T) :
    AvlStorage.get tok.value (st.insert p tok) =
      some (⟨(st.internPool.intern p).1, tok.offset⟩ ::
        (AvlStorage.get tok.value st).getD []) ∧
    AvlStorage.get tok.value ((st.insert p tok).insert p tok) =
      some (⟨(st.internPool.intern p).1, tok.offset⟩ ::
        ⟨(st.internPool.intern p).1, tok.offset⟩ ::
        (AvlStorage.get tok.value st).getD []) := by
  constructor
  · exact AvlStorage.get_insert_self hsorted p tok
  · have h2 := AvlStorage.get_insert_self (StorageSorted_insert hsorted p tok) p tok
    have hip : ((st.insert p tok).internPool.intern p).1 = (st.internPool.intern p).1 := by
      show (((st.internPool.intern p).2).intern p).1 = _
      exact intern_intern_self hpool p
    rw [h2, hip, AvlStorage.get_insert_self hsorted p tok]
    simp

/-- Witness for C5 (amended): the double insertion evaluated at file 7,
term 3, offset 0 from the empty storage. -/
theorem claim_C5_witness :
    AvlStorage.get (3 : Nat) ((AvlStorage.new : AvlStorage Nat Nat).insert 7 ⟨3, 0⟩) =
      some (⟨((AvlStorage.new : AvlStorage Nat Nat).internPool.intern 7).1, 0⟩ ::
        (AvlStorage.get 3 (AvlStorage.new : AvlStorage Nat Nat)).getD []) ∧
    AvlStorage.get (3 : Nat)
        (((AvlStorage.new : AvlStorage Nat Nat).insert 7 ⟨3, 0⟩).insert 7 ⟨3, 0⟩) =
      some (⟨((AvlStorage.new : AvlStorage Nat Nat).internPool.intern 7).1, 0⟩ ::
        ⟨((AvlStorage.new : AvlStorage Nat Nat).internPool.intern 7).1, 0⟩ ::
        (AvlStorage.get 3 (AvlStorage.new : AvlStorage Nat Nat)).getD []) :=
  claim_C5_amended AvlStorage.new (by decide) (by decide) 7 ⟨3, 0⟩

/-- Claim C6: a key written by `insert(k, v)` and not subsequently written or
removed reads back as `v` (the most recently inserted value), and `insert`
replaces the existing value when the key is already present. -/
theorem claim_C6 {K V : Type} [LinearOrder K] :
    (∀ (ops1 ops2 : List (Tree.MapOp K V)) (k : K) (v : V),
      (∀ op ∈ ops2, ¬Tree.writesKey op k) →
      Tree.get k (Tree.applyOps (ops1 ++ Tree.MapOp.ins k v :: ops2) Tree.nil) =
        some v) ∧
    (∀ (t : Tree K V) (k : K) (v : V), KSorted (Tree.inorder t) →
      Tree.get k (Tree.insertT k v t) = some v) := by
  constructor
  · intro ops1 ops2 k v hw
    rw [show ops1 ++ Tree.MapOp.ins k v :: ops2 =
        (ops1 ++ [Tree.MapOp.ins k v]) ++ ops2 by simp]
    rw [Tree.applyOps_append]
    have hs1 : KSorted (Tree.inorder
        (Tree.applyOps (ops1 ++ [Tree.MapOp.ins k v]) (Tree.nil : Tree K V))) :=
      Tree.KSorted_inorder_applyOps _ _ Tree.KSorted_inorder_nil
    rw [Tree.get_applyOps_not_writes ops2 _ hs1 k hw]
    rw [Tree.applyOps_append]
    have hs0 : KSorted (Tree.inorder (Tree.applyOps ops1 (Tree.nil : Tree K V))) :=
      Tree.KSorted_inorder_applyOps _ _ Tree.KSorted_inorder_nil
    have hstep : Tree.applyOps [Tree.MapOp.ins k v]
        (Tree.applyOps ops1 (Tree.nil : Tree K V)) =
        Tree.insertT k v (Tree.applyOps ops1 Tree.nil) := rfl
    rw [hstep, Tree.insertT, Tree.get_upsert_self hs0]
  · intro t k v hs
    rw [Tree.insertT, Tree.get_upsert_self hs]

/-- Witness for C6: key 1 inserted with value 9 and then only key 2 written
reads back 9; insert into the empty tree reads back its value. -/
theorem claim_C6_witness :
    Tree.get 1 (Tree.applyOps ([] ++ Tree.MapOp.ins 1 9 :: [Tree.MapOp.ins 2 5])
      (Tree.nil : Tree Nat Nat)) = some 9 ∧
    Tree.get 1 (Tree.insertT 1 9 (Tree.nil : Tree Nat Nat)) = some 9 :=
  ⟨claim_C6.1 [] [Tree.MapOp.ins 2 5] 1 9 (by decide),
   claim_C6.2 Tree.nil 1 9 (by decide)⟩

/-- Claim C7: on every map obtained by a sequence of operations, the iterator
yields exactly the in-order traversal of the tree — the key-value pairs of
the map (same lookup result for every key) with keys strictly ascending. -/
theorem claim_C7 {K V : Type} [LinearOrder K] (ops : List (Tree.MapOp K V)) :
    Tree.iterList (Tree.applyOps ops Tree.nil) =
      Tree.inorder (Tree.applyOps ops Tree.nil) ∧
    ((Tree.iterList (Tree.applyOps ops Tree.nil)).map Prod.fst).Pairwise
      (fun a b => a < b) ∧
    ∀ k, lookupA k (Tree.iterList (Tree.applyOps ops Tree.nil)) =
      Tree.get k (Tree.applyOps ops Tree.nil) := by
  have hs := Tree.KSorted_inorder_applyOps ops Tree.nil Tree.KSorted_inorder_nil
  refine ⟨Tree.iterList_eq_inorder _, ?_, ?_⟩
  · rw [Tree.iterList_eq_inorder]
    exact List.pairwise_map.mpr hs
  · intro k
    rw [Tree.iterList_eq_inorder, ← Tree.get_eq_lookupA k _ hs]

/-- Claim C8: `query` is total (it returns a set of paths by construction) and
returns the empty set both when the lookup key is absent from the terms map
and when it is present with an empty posting list. -/
theorem claim_C8 {P T : Type} [LinearOrder P] [LinearOrder T]
    (ns : List (Token T → Option (Token T))) (st : AvlStorage P T) (term : T) :
    (AvlStorage.get (queryKey ns term) st = none → Indexer.query ns st term = ∅) ∧
    (AvlStorage.get (queryKey ns term) st = some [] →
      Indexer.query ns st term = ∅) := by
  constructor
  · intro h
    simp [Indexer.query, h]
  · intro h
    simp [Indexer.query, h]

/-- Witness for C8: querying an unknown term in the empty storage, and a term
whose posting list became empty after a purge, both yield the empty set. -/
theorem claim_C8_witness :
    Indexer.query [] (AvlStorage.new : AvlStorage Nat Nat) 3 = ∅ ∧
    Indexer.query [] (applyStorageOps [StorageOp.ins 7 ⟨3, 0⟩, StorageOp.purge 7]
      (AvlStorage.new : AvlStorage Nat Nat)) 3 = ∅ :=
  ⟨(claim_C8 [] AvlStorage.new 3).1 (by decide),
   (claim_C8 [] (applyStorageOps [StorageOp.ins 7 ⟨3, 0⟩, StorageOp.purge 7]
      AvlStorage.new) 3).2 (by decide)⟩

/-- Claim C9: the query term is treated as a token at offset 0 and pushed
through the configured normalisers in order; when every normaliser accepts,
the lookup key is the fully normalised value, and when any normaliser rejects
(the chain returns `none`), the lookup key falls back to the raw term. -/
theorem claim_C9 {T : Type} [LinearOrder T]
    (ns : List (Token T → Option (Token T))) (term : T) :
    (∀ tk, normaliseChain ns (Token.new term) = some tk →
      queryKey ns term = tk.value) ∧
    (normaliseChain ns (Token.new term) = none → queryKey ns term = term) := by
  constructor
  · intro tk h
    simp [queryKey, h]
  · intro h
    simp [queryKey, h]

/-- Witness for C9: an accepting normaliser chain maps term 3 to key 4; a
rejecting chain falls back to the raw term 3. -/
theorem claim_C9_witness :
    queryKey [fun tok : Token Nat => some ⟨tok.value + 1, tok.offset⟩] 3 = 4 ∧
    queryKey [fun _ : Token Nat => none] 3 = 3 :=
  ⟨(claim_C9 [fun tok : Token Nat => some ⟨tok.value + 1, tok.offset⟩] 3).1 ⟨4, 0⟩ rfl,
   (claim_C9 [fun _ : Token Nat => none] 3).2 rfl⟩

/-- Claim C10: the two AVL implementations are observationally equivalent as
maps: for every sequence of insert/upsert/update/remove operations from the
empty map, the interior-mutability tree of `storage/avl.rs` and the
persistent tree of `storage/avl/mod.rs` threaded through the `MvccAvl`
snapshot-and-swap cell agree on `get` for every key and on the full
iteration sequence. -/
theorem claim_C10 {K V : Type} [LinearOrder K] (ops : List (Tree.MapOp K V)) :
    (∀ k, PersAvl.getP k (PersAvl.applyOpsP ops Tree.nil) =
      Tree.get k (Tree.applyOps ops Tree.nil)) ∧
    PersAvl.iterListP (PersAvl.applyOpsP ops Tree.nil) =
      Tree.iterList (Tree.applyOps ops Tree.nil) := by
  constructor
  · intro k
    rw [PersAvl.applyOpsP_eq, PersAvl.getP_eq]
  · rw [PersAvl.applyOpsP_eq, PersAvl.iterListP_eq]

end IndexingService
